import Mathlib

/-!
Shallow embedding of the treesize repository (crates/core and crates/app)
and verification of its specification claims.

Machine integers are modelled as `Nat` with explicit saturation where the
source uses `saturating_add` (`u128` for sizes, `u64` for file counts).
Rust `OsStr` path components are modelled by `OsStr` below: a component is
either valid UTF-8 (carrying its decoded string) or undecodable (carrying
the string its lossy decoding would produce).  A `Path` is its list of
components, with the leading `"/"` of an absolute path as a distinguished
first component, mirroring `std::path::Components`.
-/

namespace Treesize

/-- Model of `std::ffi::OsStr` for a single path component: either valid
UTF-8 text, or undecodable bytes identified by their lossy decoding
(which for a nonempty undecodable component is a nonempty string
containing U+FFFD). -/
inductive OsStr where
  | valid (s : String)
  | invalid (lossyRepr : String)
deriving DecidableEq, Repr, Inhabited

/-- `OsStr::to_str`: `some` exactly when the component is valid UTF-8. -/
def OsStr.toStr : OsStr → Option String
  | .valid s => some s
  | .invalid _ => none

/-- `OsStr::to_string_lossy`. -/
def OsStr.toLossy : OsStr → String
  | .valid s => s
  | .invalid l => l

/-- Model of `std::path::Path` as its component list. -/
abbrev MPath := List OsStr

/-- The `RootDir` component of an absolute path. -/
def rootComp : OsStr := OsStr.valid "/"

/-- `Path::parent`: `none` for the empty path and for `"/"`, otherwise the
path with its last component dropped. -/
def parentPath : MPath → Option MPath
  | [] => none
  | [c] => if c = rootComp then none else some []
  | p@(_ :: _ :: _) => some p.dropLast

/-- `Path::file_name`: `none` for the empty path and for `"/"`, otherwise
the last component. -/
def fileName : MPath → Option OsStr
  | [] => none
  | [c] => if c = rootComp then none else some c
  | p@(_ :: _ :: _) => p.getLast?

/-- Rendering of a path as text (`Path::to_str` on the whole path):
succeeds exactly when every component is valid UTF-8. -/
def pathToStr (p : MPath) : Option String :=
  if p.all (fun c => match c with | .valid _ => true | .invalid _ => false) then
    some (match p with
      | OsStr.valid "/" :: rest => "/" ++ String.intercalate "/" (rest.map OsStr.toLossy)
      | _ => String.intercalate "/" (p.map OsStr.toLossy))
  else none

/-- `Path::to_string_lossy` on the whole path. -/
def pathToLossy (p : MPath) : String :=
  match p with
  | OsStr.valid "/" :: rest => "/" ++ String.intercalate "/" (rest.map OsStr.toLossy)
  | _ => String.intercalate "/" (p.map OsStr.toLossy)

/-! ## The data model (crates/core/src/model.rs) -/

/-- `pub struct NodeId(pub u64)`. -/
structure NodeId where
  val : Nat
deriving DecidableEq, Repr, Inhabited

/-- `pub enum NodeKind { File, Dir }`. -/
inductive NodeKind where
  | File
  | Dir
deriving DecidableEq, Repr, Inhabited

/-- `pub struct TreeNode`.  `size` is a `u128`, `file_count` a `u64`;
`modified : Option<SystemTime>` carries no information the claims use and
is modelled as `Option Unit`. -/
structure TreeNode where
  id : NodeId
  parent : Option NodeId
  path : MPath
  name : String
  kind : NodeKind
  size : Nat
  file_count : Nat
  children : List NodeId
  modified : Option Unit
deriving DecidableEq, Repr, Inhabited

/-- `pub struct Tree`. -/
structure Tree where
  root : NodeId
  nodes : List TreeNode
deriving DecidableEq, Repr, Inhabited

/-! ## Saturating machine arithmetic -/

def u128Max : Nat := 2 ^ 128 - 1

def u64Max : Nat := 2 ^ 64 - 1

/-- `u128::saturating_add`. -/
def satAdd128 (a b : Nat) : Nat := min (a + b) u128Max

/-- `u64::saturating_add`. -/
def satAdd64 (a b : Nat) : Nat := min (a + b) u64Max

/-! ## TreeBuilder (crates/core/src/scanner.rs, `build_tree`) -/

/-- The builder state: the node arena and the `id_by_path` map.  The
`HashMap<PathBuf, NodeId>` is modelled as an association list whose keys
are kept distinct (insertion only happens after a failed lookup). -/
structure BState where
  nodes : List TreeNode
  idByPath : List (MPath × Nat)
deriving Repr

/-- `HashMap::get`. -/
def lookupPath (m : List (MPath × Nat)) (p : MPath) : Option Nat :=
  (m.find? (fun e => e.1 = p)).map (·.2)

/-- The insertion step of `ensure_dir` (its body after the memo lookup
misses and the parent id has been computed): append the new `Dir` node,
register it in `id_by_path`, and link it as a child of its parent. -/
def insertDirNode (path : MPath) (parentId : Option Nat) (st1 : BState) : BState × Nat :=
  let id := st1.nodes.length
  let name := ((fileName path).bind OsStr.toStr).getD ((pathToStr path).getD "")
  let node : TreeNode :=
    { id := ⟨id⟩, parent := parentId.map (⟨·⟩), path := path, name := name,
      kind := .Dir, size := 0, file_count := 0, children := [], modified := none }
  let nodes := st1.nodes ++ [node]
  let nodes :=
    match parentId with
    | some pid =>
        List.modify (fun nd => { nd with children := nd.children ++ [⟨id⟩] }) pid nodes
    | none => nodes
  (⟨nodes, (path, id) :: st1.idByPath⟩, id)

/-- `ensure_dir` from `build_tree`.  The Rust function recurses through
the parent chain with memoization; `fuel` makes the recursion structural.
Every call site supplies `path.length + 2`, which always suffices because
the root path is ensured (hence memoized) before any file is processed. -/
def ensure_dir (root : MPath) : Nat → MPath → BState → BState × Nat
  | 0, _, st => (st, 0)
  | fuel + 1, path, st =>
    match lookupPath st.idByPath path with
    | some id => (st, id)
    | none =>
      let pr : BState × Option Nat :=
        if path = root then (st, none)
        else
          let par := (parentPath path).getD root
          let r := ensure_dir root fuel par st
          (r.1, some r.2)
      insertDirNode path pr.2 pr.1

/-- The ancestor-propagation loop of `build_tree`: add `sz` bytes and one
file to the directory registered for each path on the walk from `dir` up
to the root (stopping at the root, or when `parent()` yields `None`).
The Rust `while` loop terminates because each parent path is strictly
shorter; `fuel` (always called with `dir.length + 1`, which suffices for
the same reason) makes the recursion structural. -/
def propagate (root : MPath) (idByPath : List (MPath × Nat)) (sz : Nat) :
    Nat → MPath → List TreeNode → List TreeNode
  | 0, _, nodes => nodes
  | fuel + 1, dir, nodes =>
    let nodes :=
      match lookupPath idByPath dir with
      | some did =>
          List.modify
            (fun nd =>
              { nd with size := satAdd128 nd.size sz,
                        file_count := satAdd64 nd.file_count 1 }) did nodes
      | none => nodes
    if dir = root then nodes
    else
      match parentPath dir with
      | some par => propagate root idByPath sz fuel par nodes
      | none => nodes

/-- The File-node insertion step of the per-file loop of `build_tree`:
append the `File` node and link it as a child of its parent directory. -/
def addFileNode (path : MPath) (sz : Nat) (pid : Nat) (st1 : BState) : List TreeNode :=
  let id := st1.nodes.length
  let name := ((fileName path).bind OsStr.toStr).getD ""
  let node : TreeNode :=
    { id := ⟨id⟩, parent := some ⟨pid⟩, path := path, name := name,
      kind := .File, size := sz, file_count := 1, children := [], modified := none }
  let nodes := st1.nodes ++ [node]
  List.modify (fun nd => { nd with children := nd.children ++ [⟨id⟩] }) pid nodes

/-- The per-file body of the `for (path, sz) in files` loop of
`build_tree`: ensure the parent directory, append the `File` node, link
it, then propagate size and count to every ancestor directory. -/
def addFile (root : MPath) (st : BState) (pf : MPath × Nat) : BState :=
  let path := pf.1
  let sz := pf.2
  let parent_dir := (parentPath path).getD root
  let r := ensure_dir root (parent_dir.length + 2) parent_dir st
  ⟨propagate root r.1.idByPath sz (parent_dir.length + 1) parent_dir
    (addFileNode path sz r.2 r.1), r.1.idByPath⟩

/-- `build_tree` (crates/core/src/scanner.rs lines 142-240). -/
def build_tree (root : MPath) (files : List (MPath × Nat)) : Tree :=
  let r := ensure_dir root (root.length + 2) root ⟨[], []⟩
  let rootId := r.2
  let st := files.foldl (addFile root) r.1
  ⟨⟨rootId⟩, st.nodes⟩

/-! ## Descendants of a node

The spec speaks of the "descendant subtree" of a Dir node.  We read the
tree through its `parent` pointers: `ancestorsUpTo` lists the ancestor
indices of a node (fuel-bounded; fuel `t.nodes.length` suffices for every
tree `build_tree` produces, whose parent indices strictly decrease). -/

def ancestorsUpTo (t : Tree) : Nat → Nat → List Nat
  | 0, _ => []
  | fuel + 1, j =>
    match (t.nodes.getD j default).parent with
    | none => []
    | some a => a.val :: ancestorsUpTo t fuel a.val

/-- Indices of the File nodes lying in the descendant subtree of node `d`. -/
def descFileIdx (t : Tree) (d : Nat) : List Nat :=
  (List.range t.nodes.length).filter (fun j =>
    decide ((t.nodes.getD j default).kind = NodeKind.File)
      && (ancestorsUpTo t t.nodes.length j).contains d)

/-- Sum of the sizes of the File nodes in the descendant subtree of `d`. -/
def descFileSizes (t : Tree) (d : Nat) : Nat :=
  ((descFileIdx t d).map (fun j => (t.nodes.getD j default).size)).sum

/-- Number of File nodes in the descendant subtree of `d`. -/
def descFileCount (t : Tree) (d : Nat) : Nat := (descFileIdx t d).length

/-! ## TreemapLayout (crates/core/src/treemap.rs)

The source computes in `f32`/`f64`; the layout arithmetic is modelled
exactly over `ℚ` (every weight is finite in this model, so the
`is_finite` guards always pass). -/

/-- `pub struct Rect { x, y, w, h : f32 }`. -/
structure Rect where
  x : ℚ
  y : ℚ
  w : ℚ
  h : ℚ
deriving DecidableEq, Repr, Inhabited

/-- `pub struct TreemapItem`. -/
structure TreemapItem where
  id : NodeId
  weight : ℚ
  rect : Rect
deriving DecidableEq, Repr, Inhabited

/-- Two rectangles overlap when their interiors intersect. -/
def Rect.Overlaps (r1 r2 : Rect) : Prop :=
  r1.x < r2.x + r2.w ∧ r2.x < r1.x + r1.w ∧ r1.y < r2.y + r2.h ∧ r2.y < r1.y + r1.h

/-- Stable insertion of one item into a weight-descending sorted list:
an earlier item is placed before later items of equal weight. -/
def insertByWeight (x : NodeId × ℚ) : List (NodeId × ℚ) → List (NodeId × ℚ)
  | [] => [x]
  | y :: ys => if x.2 ≥ y.2 then x :: y :: ys else y :: insertByWeight x ys

/-- `items.sort_by(|a, b| b.1.partial_cmp(&a.1).unwrap_or(Equal))`: a
stable sort, descending by weight (the comparator is a total order on
the filtered items, which contain no NaN).  Any stable sort computes the
same list, so Rust's mergesort is modelled as stable insertion sort. -/
def sortByWeightDesc : List (NodeId × ℚ) → List (NodeId × ℚ)
  | [] => []
  | x :: xs => insertByWeight x (sortByWeightDesc xs)

/-- The `for (id, weight) in items` loop of `squarify`.  `horizontal`
is fixed before the loop (`w >= h` on the input rectangle); `total` is
the sum of all retained weights, computed once.  The state is the
remaining rectangle `(x, y, w, h)`. -/
def squarifyLoop (horizontal : Bool) (total : ℚ) :
    List (NodeId × ℚ) → ℚ → ℚ → ℚ → ℚ → List TreemapItem
  | [], _, _, _, _ => []
  | (id, weight) :: rest, x, y, w, h =>
    let frac := max (weight / total) 0
    if horizontal then
      let cw := w * frac
      if cw ≤ 1 / 2 then squarifyLoop horizontal total rest x y w h
      else
        let item : TreemapItem := ⟨id, weight, ⟨x, y, cw, h⟩⟩
        if w - cw ≤ 1 ∨ h ≤ 1 then [item]
        else item :: squarifyLoop horizontal total rest (x + cw) y (w - cw) h
    else
      let ch := h * frac
      if ch ≤ 1 / 2 then squarifyLoop horizontal total rest x y w h
      else
        let item : TreemapItem := ⟨id, weight, ⟨x, y, w, ch⟩⟩
        if w ≤ 1 ∨ h - ch ≤ 1 then [item]
        else item :: squarifyLoop horizontal total rest x (y + ch) w (h - ch)

/-- `squarify` (crates/core/src/treemap.rs lines 19-71). -/
def squarify (weights : List (NodeId × ℚ)) (area : Rect) : List TreemapItem :=
  let items := weights.filter (fun p => 0 < p.2)
  if items = [] ∨ area.w ≤ 0 ∨ area.h ≤ 0 then []
  else
    let items := sortByWeightDesc items
    let total : ℚ := (items.map (·.2)).sum
    if total ≤ 0 then []
    else squarifyLoop (decide (area.h ≤ area.w)) total items area.x area.y area.w area.h


/-! ## Scanner (crates/core/src/scanner.rs, `Scanner::scan`)

`Scanner::scan` drives the `ignore` crate's parallel walker; every worker
runs the same per-entry callback (lines 77-130).  The walk is modelled as
the sequential trace of callback invocations: a list of
`(cancelObserved, event)` pairs, where `cancelObserved` is the value the
callback reads from the shared cancel flag before processing the entry
(the pause loop re-checks cancel and otherwise only sleeps, so it
contributes no messages).  The properties claimed about `Done` do not
depend on the interleaving of workers: `Done` is sent by `scan` itself,
strictly after the walker has returned and all callback sends happened. -/

/-- `pub enum ScanMsg`.  `DirDone` is declared but never constructed. -/
inductive ScanMsg where
  | progress (scanned discovered : Nat) (bytes : Nat)
  | dirDone (path : MPath) (bytes : Nat) (files dirs : Nat)
  | file (path : MPath) (bytes : Nat)
  | done (t : Tree)
  | error (msg : String)
deriving Repr

/-- One walker entry: `Ok` with its file-type flag, path and metadata
result (`none` models a metadata read failure, `some sz` a size), or a
traversal error. -/
inductive EntryEv where
  | ok (isFile : Bool) (path : MPath) (meta : Option Nat)
  | err (msg : String)
deriving Repr

/-- The shared scan state: the two atomic counters, the mutex-protected
byte total and collected file list, plus the messages sent so far. -/
structure WalkSt where
  scanned : Nat
  discovered : Nat
  bytes : Nat
  files : List (MPath × Nat)
  msgs : List ScanMsg
deriving Repr

/-- The body of the per-entry callback (after the pause/cancel checks). -/
def stepEntry (st : WalkSt) (e : EntryEv) : WalkSt :=
  match e with
  | .err m => { st with msgs := st.msgs ++ [ScanMsg.error m] }
  | .ok isFile path meta =>
    if isFile then
      let discovered := st.discovered + 1
      match meta with
      | some sz =>
          let scanned := st.scanned + 1
          let bytes := satAdd128 st.bytes sz
          { scanned := scanned, discovered := discovered, bytes := bytes,
            files := st.files ++ [(path, sz)],
            msgs := st.msgs ++ [ScanMsg.progress scanned discovered bytes,
                                ScanMsg.file path sz] }
      | none =>
          { st with scanned := st.scanned + 1, discovered := discovered,
                    msgs := st.msgs ++
                      [ScanMsg.progress (st.scanned + 1) discovered st.bytes] }
    else st

/-- The walk: entries are processed until a callback observes the cancel
flag and returns `WalkState::Quit`. -/
def runWalk : WalkSt → List (Bool × EntryEv) → WalkSt
  | st, [] => st
  | st, (cancelObserved, e) :: rest =>
    if cancelObserved then st
    else runWalk (stepEntry st e) rest

/-- The file list collected by the walk (handed to `build_tree`). -/
def collectedFiles (entries : List (Bool × EntryEv)) : List (MPath × Nat) :=
  (runWalk ⟨0, 0, 0, [], []⟩ entries).files

/-- `Scanner::scan` (lines 47-139): run the walk, then assemble the tree
from the collected files and send exactly one `Done` message. -/
def scanMsgs (root : MPath) (entries : List (Bool × EntryEv)) : List ScanMsg :=
  let st := runWalk ⟨0, 0, 0, [], []⟩ entries
  st.msgs ++ [ScanMsg.done (build_tree root st.files)]

/-- Whether a message is the `Done` variant. -/
def isDoneMsg : ScanMsg → Bool
  | .done _ => true
  | _ => false

/-- The `WalkBuilder` configuration assembled in `Scanner::scan` (lines
61-66): `hidden(false)`, `git_global(false)`, `follow_links(false)`,
`threads(num_cpus::get())`.  `numCpus` is the environment's logical CPU
count; `scan`'s signature (`root: PathBuf`, `tx: Sender<ScanMsg>`)
supplies no other configuration input. -/
structure WalkConfig where
  threads : Nat
  hidden : Bool
  gitGlobal : Bool
  followLinks : Bool
deriving DecidableEq, Repr

/-- The only configuration `Scanner::scan` ever builds. -/
def scanWalkConfig (numCpus : Nat) : WalkConfig :=
  { threads := numCpus, hidden := false, gitGlobal := false, followLinks := false }


/-! ## SearchFilter (crates/app/src/state.rs) -/

/-- `char::to_ascii_lowercase`. -/
def asciiLowerChar (c : Char) : Char :=
  if 'A' ≤ c ∧ c ≤ 'Z' then Char.ofNat (c.toNat + 32) else c

/-- `str::to_ascii_lowercase`. -/
def asciiLower (s : String) : String := String.mk (s.toList.map asciiLowerChar)

/-- `str::contains(&str)` on character lists: `pat` occurs as a
contiguous segment of `hay`. -/
def strContainsSub (pat : List Char) : List Char → Bool
  | [] => pat.isEmpty
  | c :: t => pat.isPrefixOf (c :: t) || strContainsSub pat t

/-- `hay.contains(pat)`. -/
def strContains (hay pat : String) : Bool := strContainsSub pat.toList hay.toList

/-- `pub struct SearchFilter` (the two `Vec<bool>` bitsets). -/
structure SearchFilter where
  direct_matches : List Bool
  subtree_matches : List Bool
deriving Repr

/-- `SearchFilter::matches_node`: Rust indexes `direct_matches[id.0 as
usize]` and panics when the index is out of bounds; the panic is
modelled as `none`. -/
def SearchFilter.matches_node (f : SearchFilter) (id : NodeId) : Option Bool :=
  f.direct_matches.get? id.val

/-- `SearchFilter::matches_subtree`, with the same panic model. -/
def SearchFilter.matches_subtree (f : SearchFilter) (id : NodeId) : Option Bool :=
  f.subtree_matches.get? id.val

/-- The recursive `dfs` of `SearchFilter::build`: post-order OR of
`direct` over each node's subtree, writing `subtree[idx]` and returning
the subtree value.  The Rust recursion descends through `children`
(terminating for the trees `build_tree` produces, whose child indices
strictly increase); `fuel` makes it structural, and `build` supplies
fuel `tree.nodes.length`, which suffices for exactly those trees. -/
def dfs (tree : Tree) (direct : List Bool) :
    Nat → List Bool → NodeId → List Bool × Bool
  | 0, subtree, _ => (subtree, false)
  | fuel + 1, subtree, id =>
    let idx := id.val
    let node := tree.nodes.getD idx default
    let r := node.children.foldl
      (fun acc c =>
        ((dfs tree direct fuel acc.1 c).1, acc.2 || (dfs tree direct fuel acc.1 c).2))
      (subtree, false)
    let any := direct.getD idx false || r.2
    (r.1.set idx any, any)

/-- `SearchFilter::build` (crates/app/src/state.rs lines 42-77). -/
def SearchFilter.build (needle : String) (tree : Tree) : SearchFilter :=
  let needle_lc := asciiLower needle
  let n := tree.nodes.length
  let direct := tree.nodes.map (fun node =>
    let matched := strContains (asciiLower node.name) needle_lc
    if matched then matched
    else strContains (asciiLower (pathToLossy node.path)) needle_lc)
  let subtree := List.replicate n false
  let subtree := if tree.nodes = [] then subtree else (dfs tree direct n subtree tree.root).1
  { direct_matches := direct, subtree_matches := subtree }

/-- Well-formedness of a tree's child links: every child index is in
bounds and strictly larger than its parent's index.  Every tree
`build_tree` produces satisfies this (nodes are appended after their
parent), and it is what makes the Rust `dfs` recursion terminate. -/
def TreeWF (t : Tree) : Prop :=
  ∀ i, i < t.nodes.length →
    ∀ c ∈ (t.nodes.getD i default).children, i < c.val ∧ c.val < t.nodes.length

/-- Reachability from node `i` to node `j` through `children` links. -/
inductive ReachesFrom (t : Tree) : Nat → Nat → Prop where
  | refl (i : Nat) : ReachesFrom t i i
  | child {i j : Nat} (c : NodeId) :
      ReachesFrom t i j → c ∈ (t.nodes.getD j default).children → ReachesFrom t i c.val


/-- The pure subtree-OR value `dfs` computes for a node: `direct` at the
node OR-ed over its children's values, with the same fuel discipline. -/
def dfsVal (tree : Tree) (direct : List Bool) : Nat → Nat → Bool
  | 0, _ => false
  | fuel + 1, idx =>
    direct.getD idx false ||
      (tree.nodes.getD idx default).children.any (fun c => dfsVal tree direct fuel c.val)


/-- A two-node tree whose second node is not linked anywhere under the
root: a `Tree` value as constructible in Rust (all fields are public). -/
def c5Tree : Tree :=
  ⟨⟨0⟩,
   [{ id := ⟨0⟩, parent := none, path := [], name := "x", kind := .Dir, size := 0,
      file_count := 0, children := [], modified := none },
    { id := ⟨1⟩, parent := none, path := [], name := "match", kind := .File, size := 1,
      file_count := 1, children := [], modified := none }]⟩


/-! ## Invariant apparatus for the TreeBuilder aggregation proof -/

/-- Strict path extension: `q` is a proper prefix of `p`. -/
def underB (q p : MPath) : Bool := decide (q <+: p ∧ q ≠ p)

/-- Sum of the sizes of the File nodes whose path strictly extends `q`. -/
def sumFilesUnder (nodes : List TreeNode) (q : MPath) : Nat :=
  (((List.range nodes.length).filter (fun j =>
      decide ((nodes.getD j default).kind = NodeKind.File)
        && underB q (nodes.getD j default).path)).map
    (fun j => (nodes.getD j default).size)).sum

/-- Number of File nodes whose path strictly extends `q`. -/
def countFilesUnder (nodes : List TreeNode) (q : MPath) : Nat :=
  ((List.range nodes.length).filter (fun j =>
      decide ((nodes.getD j default).kind = NodeKind.File)
        && underB q (nodes.getD j default).path)).length

/-- The invariant `build_tree` maintains over its builder state while
processing files whose paths strictly extend a nonempty root. -/
structure Inv (root : MPath) (st : BState) : Prop where
  len0 : 0 < st.nodes.length
  node0_path : (st.nodes.getD 0 default).path = root
  node0_parent : (st.nodes.getD 0 default).parent = none
  node0_kind : (st.nodes.getD 0 default).kind = NodeKind.Dir
  rootMap : lookupPath st.idByPath root = some 0
  mapSound : ∀ q i, lookupPath st.idByPath q = some i →
    i < st.nodes.length ∧ (st.nodes.getD i default).path = q ∧
    (st.nodes.getD i default).kind = NodeKind.Dir
  mapComplete : ∀ i, i < st.nodes.length → (st.nodes.getD i default).kind = NodeKind.Dir →
    lookupPath st.idByPath (st.nodes.getD i default).path = some i
  under : ∀ i, i < st.nodes.length → root <+: (st.nodes.getD i default).path
  fileStrict : ∀ i, i < st.nodes.length → (st.nodes.getD i default).kind = NodeKind.File →
    (st.nodes.getD i default).path ≠ root
  parentLink : ∀ i, i < st.nodes.length → i ≠ 0 →
    ∃ p : Nat, (st.nodes.getD i default).parent = some ⟨p⟩ ∧ p < i ∧
      lookupPath st.idByPath ((parentPath (st.nodes.getD i default).path).getD root) = some p
  mapClosed : ∀ q i, lookupPath st.idByPath q = some i →
    ∀ q', root <+: q' → q' <+: q → ∃ i', lookupPath st.idByPath q' = some i'
  filesClosed : ∀ j, j < st.nodes.length → (st.nodes.getD j default).kind = NodeKind.File →
    ∀ q', root <+: q' → q' <+: (st.nodes.getD j default).path →
      q' ≠ (st.nodes.getD j default).path → ∃ i', lookupPath st.idByPath q' = some i'
  fileSz : ∀ j, j < st.nodes.length → (st.nodes.getD j default).kind = NodeKind.File →
    (st.nodes.getD j default).size < 2 ^ 64
  agg : ∀ i, i < st.nodes.length → (st.nodes.getD i default).kind = NodeKind.Dir →
    (st.nodes.getD i default).size = sumFilesUnder st.nodes (st.nodes.getD i default).path ∧
    (st.nodes.getD i default).file_count = countFilesUnder st.nodes (st.nodes.getD i default).path


/-- Equality of all `TreeNode` fields the aggregation argument depends
on (everything except `children`, `id`, `name`, `modified`). -/
def coreEq (a b : TreeNode) : Prop :=
  a.path = b.path ∧ a.kind = b.kind ∧ a.size = b.size ∧ a.file_count = b.file_count ∧
  a.parent = b.parent

/-- Number of File nodes in the arena. -/
def fileCnt (nodes : List TreeNode) : Nat :=
  ((List.range nodes.length).filter (fun j =>
    decide ((nodes.getD j default).kind = NodeKind.File))).length

/-! # Theorems -/

theorem parentPath_length {p q : MPath} (h : parentPath p = some q) :
    q.length < p.length := by
  match p with
  | [] => simp [parentPath] at h
  | [c] =>
    have e : parentPath [c] = if c = rootComp then none else some [] := rfl
    rw [e] at h
    split at h
    · exact absurd h (by simp)
    · simp only [Option.some.injEq] at h; subst h; simp
  | a :: b :: t =>
    have e : parentPath (a :: b :: t) = some (a :: b :: t).dropLast := rfl
    rw [e] at h
    simp only [Option.some.injEq] at h
    subst h
    simp

theorem parentPath_concat (root : MPath) (c : OsStr) (hne : root ≠ []) :
    parentPath (root ++ [c]) = some root := by
  match root with
  | [] => exact absurd rfl hne
  | [a] => rfl
  | a :: b :: t =>
    show parentPath (a :: ((b :: t) ++ [c])) = _
    have h1 : a :: ((b :: t) ++ [c]) = a :: b :: (t ++ [c]) := by simp
    rw [h1]
    show some (a :: b :: (t ++ [c])).dropLast = _
    have h2 : a :: b :: (t ++ [c]) = (a :: b :: t) ++ [c] := by simp
    rw [h2, List.dropLast_concat]

theorem fileName_concat (root : MPath) (c : OsStr) (hne : root ≠ []) :
    fileName (root ++ [c]) = some c := by
  match root with
  | [] => exact absurd rfl hne
  | [a] => rfl
  | a :: b :: t =>
    have h1 : (a :: b :: t) ++ [c] = a :: b :: (t ++ [c]) := by simp
    rw [h1]
    show (a :: b :: (t ++ [c])).getLast? = some c
    have h2 : a :: b :: (t ++ [c]) = (a :: b :: t) ++ [c] := by simp
    rw [h2, List.getLast?_concat]

/-- C1 (counterexample).  The claim quantifies over *every* input file
list; for a file whose path does not lie under the root path, the upward
propagation loop of `build_tree` walks `parent()` until it returns
`None` and never reaches the root node, so the root Dir node keeps
size 0 and file_count 0 even though its descendant subtree (via the
`parent`/`children` links `ensure_dir` creates through the `unwrap_or(root)`
fallback) contains a File node of size 7. -/
theorem C1_counterexample :
    ((build_tree [OsStr.valid "/", OsStr.valid "root"]
        [([OsStr.valid "/", OsStr.valid "other", OsStr.valid "x"], 7)]).nodes.getD 0
          default).kind = NodeKind.Dir ∧
    descFileSizes
      (build_tree [OsStr.valid "/", OsStr.valid "root"]
        [([OsStr.valid "/", OsStr.valid "other", OsStr.valid "x"], 7)]) 0 = 7 ∧
    descFileCount
      (build_tree [OsStr.valid "/", OsStr.valid "root"]
        [([OsStr.valid "/", OsStr.valid "other", OsStr.valid "x"], 7)]) 0 = 1 ∧
    ((build_tree [OsStr.valid "/", OsStr.valid "root"]
        [([OsStr.valid "/", OsStr.valid "other", OsStr.valid "x"], 7)]).nodes.getD 0
          default).size ≠
      descFileSizes
        (build_tree [OsStr.valid "/", OsStr.valid "root"]
          [([OsStr.valid "/", OsStr.valid "other", OsStr.valid "x"], 7)]) 0 ∧
    ((build_tree [OsStr.valid "/", OsStr.valid "root"]
        [([OsStr.valid "/", OsStr.valid "other", OsStr.valid "x"], 7)]).nodes.getD 0
          default).file_count ≠
      descFileCount
        (build_tree [OsStr.valid "/", OsStr.valid "root"]
          [([OsStr.valid "/", OsStr.valid "other", OsStr.valid "x"], 7)]) 0 := by
  decide

/-- C2: `build_tree` on
`[("/root/a.txt", 100), ("/root/sub/b.txt", 50)]` with root `/root`
yields a tree whose root node has size 150 and file_count 2, containing a
Dir node "sub" (size 50, file_count 1) and leaf File nodes "a.txt"
(size 100) and "b.txt" (size 50). -/
theorem C2_example_tree :
    (build_tree [OsStr.valid "/", OsStr.valid "root"]
      [([OsStr.valid "/", OsStr.valid "root", OsStr.valid "a.txt"], 100),
       ([OsStr.valid "/", OsStr.valid "root", OsStr.valid "sub", OsStr.valid "b.txt"], 50)]) =
    ⟨⟨0⟩,
     [{ id := ⟨0⟩, parent := none,
        path := [OsStr.valid "/", OsStr.valid "root"], name := "root",
        kind := .Dir, size := 150, file_count := 2,
        children := [⟨1⟩, ⟨2⟩], modified := none },
      { id := ⟨1⟩, parent := some ⟨0⟩,
        path := [OsStr.valid "/", OsStr.valid "root", OsStr.valid "a.txt"],
        name := "a.txt", kind := .File, size := 100, file_count := 1,
        children := [], modified := none },
      { id := ⟨2⟩, parent := some ⟨0⟩,
        path := [OsStr.valid "/", OsStr.valid "root", OsStr.valid "sub"],
        name := "sub", kind := .Dir, size := 50, file_count := 1,
        children := [⟨3⟩], modified := none },
      { id := ⟨3⟩, parent := some ⟨2⟩,
        path := [OsStr.valid "/", OsStr.valid "root", OsStr.valid "sub", OsStr.valid "b.txt"],
        name := "b.txt", kind := .File, size := 50, file_count := 1,
        children := [], modified := none }]⟩ := by
  decide

/-- C7 (counterexample).  A file whose last component is undecodable
gets name `""` (from `to_str().unwrap_or("")`), not the lossy textual
representation of the component (`to_string_lossy`, here `"x�"`). -/
theorem C7_counterexample :
    ((build_tree [OsStr.valid "/", OsStr.valid "r"]
        [([OsStr.valid "/", OsStr.valid "r", OsStr.invalid "x�"], 5)]).nodes.getD 1
          default).kind = NodeKind.File ∧
    ((build_tree [OsStr.valid "/", OsStr.valid "r"]
        [([OsStr.valid "/", OsStr.valid "r", OsStr.invalid "x�"], 5)]).nodes.getD 1
          default).name = "" ∧
    OsStr.toLossy (OsStr.invalid "x�") = "x�" ∧
    ((build_tree [OsStr.valid "/", OsStr.valid "r"]
        [([OsStr.valid "/", OsStr.valid "r", OsStr.invalid "x�"], 5)]).nodes.getD 1
          default).name ≠ OsStr.toLossy (OsStr.invalid "x�") := by
  decide

/-- C7 (amended): for any nonempty root and any file whose last
component is undecodable, `build_tree` still constructs the tree (it is
total), and the affected File node's name falls back to the empty
string, not to a lossy rendering. -/
theorem C7_undecodable_name (root : MPath) (c : OsStr) (sz : Nat) (hne : root ≠ [])
    (hc : OsStr.toStr c = none) :
    (build_tree root [(root ++ [c], sz)]).nodes.length = 2 ∧
    ((build_tree root [(root ++ [c], sz)]).nodes.getD 1 default).kind = NodeKind.File ∧
    ((build_tree root [(root ++ [c], sz)]).nodes.getD 1 default).name = "" ∧
    ((build_tree root [(root ++ [c], sz)]).nodes.getD 1 default).path = root ++ [c] := by
  have h2 : root.length + 2 = (root.length + 1) + 1 := rfl
  simp only [build_tree, h2, ensure_dir, insertDirNode, lookupPath, List.find?_nil,
    List.foldl_cons, List.foldl_nil, Option.map_none]
  simp only [addFile, addFileNode, parentPath_concat root c hne, Option.getD_some, h2,
    ensure_dir, insertDirNode, lookupPath, List.find?_cons, fileName_concat root c hne,
    Option.bind_some, hc, Option.getD_none]
  simp [propagate, lookupPath, List.modify, hc]

/-- Witness for C7 (amended) at a concrete undecodable component. -/
theorem C7_undecodable_name_witness :
    ((build_tree [OsStr.valid "/", OsStr.valid "r"]
        [([OsStr.valid "/", OsStr.valid "r"] ++ [OsStr.invalid "q�"], 9)]).nodes.getD 1
          default).name = "" :=
  (C7_undecodable_name [OsStr.valid "/", OsStr.valid "r"] (OsStr.invalid "q�") 9
    (by decide) (by decide)).2.2.1

/-- C8: for every root path, `build_tree` on the empty file list yields
a tree with exactly one node, the root Dir node, with size 0 and
file_count 0. -/
theorem C8_empty_tree (root : MPath) :
    (build_tree root []).nodes.length = 1 ∧
    ((build_tree root []).nodes.getD 0 default).kind = NodeKind.Dir ∧
    ((build_tree root []).nodes.getD 0 default).size = 0 ∧
    ((build_tree root []).nodes.getD 0 default).file_count = 0 ∧
    (build_tree root []).root = ⟨0⟩ := by
  have h2 : root.length + 2 = (root.length + 1) + 1 := rfl
  simp only [build_tree, h2, ensure_dir, insertDirNode, lookupPath, List.find?_nil,
    List.foldl_nil]
  simp

theorem hloop_cons (total : ℚ) (id : NodeId) (weight : ℚ) (rest : List (NodeId × ℚ))
    (x y w h : ℚ) :
    squarifyLoop true total ((id, weight) :: rest) x y w h =
      if w * max (weight / total) 0 ≤ 1 / 2 then squarifyLoop true total rest x y w h
      else if w - w * max (weight / total) 0 ≤ 1 ∨ h ≤ 1 then
        [⟨id, weight, ⟨x, y, w * max (weight / total) 0, h⟩⟩]
      else ⟨id, weight, ⟨x, y, w * max (weight / total) 0, h⟩⟩ ::
        squarifyLoop true total rest (x + w * max (weight / total) 0) y
          (w - w * max (weight / total) 0) h := rfl

theorem vloop_cons (total : ℚ) (id : NodeId) (weight : ℚ) (rest : List (NodeId × ℚ))
    (x y w h : ℚ) :
    squarifyLoop false total ((id, weight) :: rest) x y w h =
      if h * max (weight / total) 0 ≤ 1 / 2 then squarifyLoop false total rest x y w h
      else if w ≤ 1 ∨ h - h * max (weight / total) 0 ≤ 1 then
        [⟨id, weight, ⟨x, y, w, h * max (weight / total) 0⟩⟩]
      else ⟨id, weight, ⟨x, y, w, h * max (weight / total) 0⟩⟩ ::
        squarifyLoop false total rest x (y + h * max (weight / total) 0) w
          (h - h * max (weight / total) 0) := rfl

theorem hloop_spec (total : ℚ) (htot : 0 < total) :
    ∀ (items : List (NodeId × ℚ)) (x y w h : ℚ),
      (∀ p ∈ items, 0 < p.2) → (items.map (·.2)).sum ≤ total → 0 ≤ w →
      (squarifyLoop true total items x y w h).length ≤ items.length ∧
      ((squarifyLoop true total items x y w h).map (·.rect.w)).sum ≤ w ∧
      (∀ it ∈ squarifyLoop true total items x y w h,
         it.rect.y = y ∧ it.rect.h = h ∧ 0 < it.rect.w) ∧
      (∀ k, k < (squarifyLoop true total items x y w h).length →
         ((squarifyLoop true total items x y w h).getD k default).rect.x
            = x + (((squarifyLoop true total items x y w h).take k).map (·.rect.w)).sum ∧
         ((squarifyLoop true total items x y w h).getD k default).rect.w
            = (w - (((squarifyLoop true total items x y w h).take k).map (·.rect.w)).sum)
              * (((squarifyLoop true total items x y w h).getD k default).weight / total)) := by
  intro items
  induction items with
  | nil =>
    intro x y w h _ _ hw
    refine ⟨by simp [squarifyLoop], by simpa [squarifyLoop] using hw,
      by simp [squarifyLoop], ?_⟩
    intro k hk
    simp [squarifyLoop] at hk
  | cons p rest ih =>
    obtain ⟨id, weight⟩ := p
    intro x y w h hpos hsum hw
    have hwpos : 0 < weight := hpos (id, weight) (by simp)
    have hrestpos : ∀ q ∈ rest, 0 < q.2 := fun q hq => hpos q (by simp [hq])
    have hsumeq : ((((id, weight) : NodeId × ℚ) :: rest).map (·.2)).sum
        = weight + (rest.map (·.2)).sum := by simp
    have hrestsum : (rest.map (·.2)).sum ≤ total := by
      rw [hsumeq] at hsum
      have : 0 < weight := hwpos
      linarith
    have hfrac : max (weight / total) 0 = weight / total :=
      max_eq_left (div_nonneg hwpos.le htot.le)
    have hfrac1 : weight / total ≤ 1 := by
      rw [div_le_one htot]
      rw [hsumeq] at hsum
      have h0 : 0 ≤ (rest.map (·.2)).sum := by
        apply List.sum_nonneg
        intro a ha
        obtain ⟨q, hq, rfl⟩ := List.mem_map.mp ha
        exact (hrestpos q hq).le
      linarith
    have hcw_le : w * (weight / total) ≤ w := by
      calc w * (weight / total) ≤ w * 1 := mul_le_mul_of_nonneg_left hfrac1 hw
        _ = w := mul_one w
    rw [hloop_cons, hfrac]
    by_cases hskip : w * (weight / total) ≤ 1 / 2
    · rw [if_pos hskip]
      obtain ⟨l1, l2, l3, l4⟩ := ih x y w h hrestpos hrestsum hw
      exact ⟨Nat.le_succ_of_le l1, l2, l3, l4⟩
    · rw [if_neg hskip]
      push_neg at hskip
      have hcwpos : 0 < w * (weight / total) := lt_trans (by norm_num) hskip
      by_cases hbrk : w - w * (weight / total) ≤ 1 ∨ h ≤ 1
      · rw [if_pos hbrk]
        refine ⟨by simp, by simpa using hcw_le, by simp [hcwpos], ?_⟩
        intro k hk
        simp only [List.length_singleton, Nat.lt_one_iff] at hk
        subst hk
        simp
      · rw [if_neg hbrk]
        push_neg at hbrk
        have hw' : 0 ≤ w - w * (weight / total) := by linarith [hbrk.1]
        obtain ⟨l1, l2, l3, l4⟩ := ih (x + w * (weight / total)) y (w - w * (weight / total)) h
          hrestpos hrestsum hw'
        refine ⟨by simpa using Nat.succ_le_succ l1, ?_, ?_, ?_⟩
        · simp only [List.map_cons, List.sum_cons]
          linarith
        · intro it hit
          rcases List.mem_cons.mp hit with rfl | hmem
          · exact ⟨rfl, rfl, hcwpos⟩
          · exact l3 it hmem
        · intro k hk
          match k with
          | 0 => simp
          | Nat.succ k =>
            simp only [List.length_cons, Nat.succ_lt_succ_iff] at hk
            obtain ⟨e1, e2⟩ := l4 k hk
            constructor
            · simp only [List.getD_cons_succ, List.take_succ_cons, List.map_cons, List.sum_cons]
              rw [e1]; ring
            · simp only [List.getD_cons_succ, List.take_succ_cons, List.map_cons, List.sum_cons]
              rw [e2]; ring_nf


theorem vloop_spec (total : ℚ) (htot : 0 < total) :
    ∀ (items : List (NodeId × ℚ)) (x y w h : ℚ),
      (∀ p ∈ items, 0 < p.2) → (items.map (·.2)).sum ≤ total → 0 ≤ h →
      (squarifyLoop false total items x y w h).length ≤ items.length ∧
      ((squarifyLoop false total items x y w h).map (·.rect.h)).sum ≤ h ∧
      (∀ it ∈ squarifyLoop false total items x y w h,
         it.rect.x = x ∧ it.rect.w = w ∧ 0 < it.rect.h) ∧
      (∀ k, k < (squarifyLoop false total items x y w h).length →
         ((squarifyLoop false total items x y w h).getD k default).rect.y
            = y + (((squarifyLoop false total items x y w h).take k).map (·.rect.h)).sum ∧
         ((squarifyLoop false total items x y w h).getD k default).rect.h
            = (h - (((squarifyLoop false total items x y w h).take k).map (·.rect.h)).sum)
              * (((squarifyLoop false total items x y w h).getD k default).weight / total)) := by
  intro items
  induction items with
  | nil =>
    intro x y w h _ _ hh
    refine ⟨by simp [squarifyLoop], by simpa [squarifyLoop] using hh,
      by simp [squarifyLoop], ?_⟩
    intro k hk
    simp [squarifyLoop] at hk
  | cons p rest ih =>
    obtain ⟨id, weight⟩ := p
    intro x y w h hpos hsum hh
    have hwpos : 0 < weight := hpos (id, weight) (by simp)
    have hrestpos : ∀ q ∈ rest, 0 < q.2 := fun q hq => hpos q (by simp [hq])
    have hsumeq : ((((id, weight) : NodeId × ℚ) :: rest).map (·.2)).sum
        = weight + (rest.map (·.2)).sum := by simp
    have hrestsum : (rest.map (·.2)).sum ≤ total := by
      rw [hsumeq] at hsum
      linarith
    have hfrac : max (weight / total) 0 = weight / total :=
      max_eq_left (div_nonneg hwpos.le htot.le)
    have hfrac1 : weight / total ≤ 1 := by
      rw [div_le_one htot]
      rw [hsumeq] at hsum
      have h0 : 0 ≤ (rest.map (·.2)).sum := by
        apply List.sum_nonneg
        intro a ha
        obtain ⟨q, hq, rfl⟩ := List.mem_map.mp ha
        exact (hrestpos q hq).le
      linarith
    have hch_le : h * (weight / total) ≤ h := by
      calc h * (weight / total) ≤ h * 1 := mul_le_mul_of_nonneg_left hfrac1 hh
        _ = h := mul_one h
    rw [vloop_cons, hfrac]
    by_cases hskip : h * (weight / total) ≤ 1 / 2
    · rw [if_pos hskip]
      obtain ⟨l1, l2, l3, l4⟩ := ih x y w h hrestpos hrestsum hh
      exact ⟨Nat.le_succ_of_le l1, l2, l3, l4⟩
    · rw [if_neg hskip]
      push_neg at hskip
      have hchpos : 0 < h * (weight / total) := lt_trans (by norm_num) hskip
      by_cases hbrk : w ≤ 1 ∨ h - h * (weight / total) ≤ 1
      · rw [if_pos hbrk]
        refine ⟨by simp, by simpa using hch_le, by simp [hchpos], ?_⟩
        intro k hk
        simp only [List.length_singleton, Nat.lt_one_iff] at hk
        subst hk
        simp
      · rw [if_neg hbrk]
        push_neg at hbrk
        have hh' : 0 ≤ h - h * (weight / total) := by linarith [hbrk.2]
        obtain ⟨l1, l2, l3, l4⟩ := ih x (y + h * (weight / total)) w (h - h * (weight / total))
          hrestpos hrestsum hh'
        refine ⟨by simpa using Nat.succ_le_succ l1, ?_, ?_, ?_⟩
        · simp only [List.map_cons, List.sum_cons]
          linarith
        · intro it hit
          rcases List.mem_cons.mp hit with rfl | hmem
          · exact ⟨rfl, rfl, hchpos⟩
          · exact l3 it hmem
        · intro k hk
          match k with
          | 0 => simp
          | Nat.succ k =>
            simp only [List.length_cons, Nat.succ_lt_succ_iff] at hk
            obtain ⟨e1, e2⟩ := l4 k hk
            constructor
            · simp only [List.getD_cons_succ, List.take_succ_cons, List.map_cons, List.sum_cons]
              rw [e1]; ring
            · simp only [List.getD_cons_succ, List.take_succ_cons, List.map_cons, List.sum_cons]
              rw [e2]; ring_nf

theorem insertByWeight_perm (x : NodeId × ℚ) (l : List (NodeId × ℚ)) :
    (insertByWeight x l).Perm (x :: l) := by
  induction l with
  | nil => exact List.Perm.refl _
  | cons y ys ih =>
    show (if x.2 ≥ y.2 then x :: y :: ys else y :: insertByWeight x ys).Perm _
    split
    · exact List.Perm.refl _
    · exact (List.Perm.cons y ih).trans (List.Perm.swap x y ys)

theorem sortByWeightDesc_perm (l : List (NodeId × ℚ)) :
    (sortByWeightDesc l).Perm l := by
  induction l with
  | nil => exact List.Perm.refl _
  | cons x xs ih =>
    exact (insertByWeight_perm x (sortByWeightDesc xs)).trans (List.Perm.cons x ih)


theorem sum_take_mono {l : List ℚ} (hnn : ∀ q ∈ l, 0 ≤ q) {m n : Nat} (hmn : m ≤ n) :
    (l.take m).sum ≤ (l.take n).sum := by
  have he : n = m + (n - m) := (Nat.add_sub_cancel' hmn).symm
  rw [he, List.take_add, List.sum_append]
  have h0 : 0 ≤ (List.take (n - m) (List.drop m l)).sum := by
    apply List.sum_nonneg
    intro a ha
    exact hnn a (((List.take_sublist _ _).trans (List.drop_sublist _ _)).subset ha)
  linarith

theorem sum_take_succ_eq {l : List ℚ} {k : Nat} (hk : k < l.length) :
    (l.take (k + 1)).sum = (l.take k).sum + l.getD k 0 := by
  rw [List.take_succ]
  rw [List.getElem?_eq_getElem hk]
  rw [List.sum_append]
  rw [List.getD_eq_getElem?_getD, List.getElem?_eq_getElem hk]
  simp

theorem hloop_main (total : ℚ) (htot : 0 < total) (items : List (NodeId × ℚ)) (x y w h : ℚ)
    (hpos : ∀ p ∈ items, 0 < p.2) (hsum : (items.map (·.2)).sum ≤ total)
    (hw : 0 ≤ w) (hh : 0 ≤ h) :
    ((squarifyLoop true total items x y w h).map (fun it => it.rect.w * it.rect.h)).sum ≤ w * h ∧
    (∀ i j, i < (squarifyLoop true total items x y w h).length →
       j < (squarifyLoop true total items x y w h).length → i ≠ j →
       ¬ Rect.Overlaps ((squarifyLoop true total items x y w h).getD i default).rect
         ((squarifyLoop true total items x y w h).getD j default).rect) := by
  obtain ⟨l1, l2, l3, l4⟩ := hloop_spec total htot items x y w h hpos hsum hw
  set out := squarifyLoop true total items x y w h with hout
  set ws := out.map (·.rect.w) with hws
  have hwsnn : ∀ q ∈ ws, 0 ≤ q := by
    intro q hq
    obtain ⟨it, hit, rfl⟩ := List.mem_map.mp hq
    exact (l3 it hit).2.2.le
  constructor
  · have e1 : out.map (fun it => it.rect.w * it.rect.h) = out.map (fun it => it.rect.w * h) :=
      List.map_congr_left (fun it hit => by rw [(l3 it hit).2.1])
    rw [e1, List.sum_map_mul_right out (·.rect.w) h]
    exact mul_le_mul_of_nonneg_right l2 hh
  · have horder : ∀ a b, a < b → b < out.length →
        (out.getD a default).rect.x + (out.getD a default).rect.w ≤
          (out.getD b default).rect.x := by
      intro a b hab hb
      have ha : a < out.length := lt_trans hab hb
      obtain ⟨ea, _⟩ := l4 a ha
      obtain ⟨eb, _⟩ := l4 b hb
      have hSa : ((out.take a).map (·.rect.w)).sum = (ws.take a).sum := by
        rw [hws, List.map_take]
      have hSb : ((out.take b).map (·.rect.w)).sum = (ws.take b).sum := by
        rw [hws, List.map_take]
      have hget : ws.getD a 0 = (out.getD a default).rect.w := by
        rw [hws, List.getD_eq_getElem?_getD, List.getElem?_map, List.getElem?_eq_getElem ha,
          List.getD_eq_getElem?_getD, List.getElem?_eq_getElem ha]
        rfl
      have hlen : a < ws.length := by rw [hws, List.length_map]; exact ha
      have hsucc : (ws.take (a + 1)).sum = (ws.take a).sum + (out.getD a default).rect.w := by
        rw [sum_take_succ_eq hlen, hget]
      have hmono : (ws.take (a + 1)).sum ≤ (ws.take b).sum := sum_take_mono hwsnn hab
      rw [ea, eb, hSa, hSb]
      linarith
    intro i j hi hj hij hovl
    obtain ⟨o1, o2, _, _⟩ := hovl
    rcases Nat.lt_or_ge i j with hlt | hge
    · have := horder i j hlt hj
      linarith
    · have hlt : j < i := lt_of_le_of_ne hge (Ne.symm hij)
      have := horder j i hlt hi
      linarith

theorem vloop_main (total : ℚ) (htot : 0 < total) (items : List (NodeId × ℚ)) (x y w h : ℚ)
    (hpos : ∀ p ∈ items, 0 < p.2) (hsum : (items.map (·.2)).sum ≤ total)
    (hw : 0 ≤ w) (hh : 0 ≤ h) :
    ((squarifyLoop false total items x y w h).map (fun it => it.rect.w * it.rect.h)).sum ≤ w * h ∧
    (∀ i j, i < (squarifyLoop false total items x y w h).length →
       j < (squarifyLoop false total items x y w h).length → i ≠ j →
       ¬ Rect.Overlaps ((squarifyLoop false total items x y w h).getD i default).rect
         ((squarifyLoop false total items x y w h).getD j default).rect) := by
  obtain ⟨l1, l2, l3, l4⟩ := vloop_spec total htot items x y w h hpos hsum hh
  set out := squarifyLoop false total items x y w h with hout
  set hs := out.map (·.rect.h) with hhs
  have hhsnn : ∀ q ∈ hs, 0 ≤ q := by
    intro q hq
    obtain ⟨it, hit, rfl⟩ := List.mem_map.mp hq
    exact (l3 it hit).2.2.le
  constructor
  · have e1 : out.map (fun it => it.rect.w * it.rect.h) = out.map (fun it => w * it.rect.h) :=
      List.map_congr_left (fun it hit => by rw [(l3 it hit).2.1])
    rw [e1]
    have e2 : (out.map (fun it => w * it.rect.h)).sum = (out.map (·.rect.h)).sum * w := by
      have e3 : out.map (fun it => w * it.rect.h) = out.map (fun it => it.rect.h * w) := by
        apply List.map_congr_left
        intro a _
        ring
      rw [e3, List.sum_map_mul_right out (·.rect.h) w]
    rw [e2]
    calc (out.map (·.rect.h)).sum * w ≤ h * w := mul_le_mul_of_nonneg_right l2 hw
      _ = w * h := mul_comm h w
  · have horder : ∀ a b, a < b → b < out.length →
        (out.getD a default).rect.y + (out.getD a default).rect.h ≤
          (out.getD b default).rect.y := by
      intro a b hab hb
      have ha : a < out.length := lt_trans hab hb
      obtain ⟨ea, _⟩ := l4 a ha
      obtain ⟨eb, _⟩ := l4 b hb
      have hSa : ((out.take a).map (·.rect.h)).sum = (hs.take a).sum := by
        rw [hhs, List.map_take]
      have hSb : ((out.take b).map (·.rect.h)).sum = (hs.take b).sum := by
        rw [hhs, List.map_take]
      have hget : hs.getD a 0 = (out.getD a default).rect.h := by
        rw [hhs, List.getD_eq_getElem?_getD, List.getElem?_map, List.getElem?_eq_getElem ha,
          List.getD_eq_getElem?_getD, List.getElem?_eq_getElem ha]
        rfl
      have hlen : a < hs.length := by rw [hhs, List.length_map]; exact ha
      have hsucc : (hs.take (a + 1)).sum = (hs.take a).sum + (out.getD a default).rect.h := by
        rw [sum_take_succ_eq hlen, hget]
      have hmono : (hs.take (a + 1)).sum ≤ (hs.take b).sum := sum_take_mono hhsnn hab
      rw [ea, eb, hSa, hSb]
      linarith
    intro i j hi hj hij hovl
    obtain ⟨_, _, o3, o4⟩ := hovl
    rcases Nat.lt_or_ge i j with hlt | hge
    · have := horder i j hlt hj
      linarith
    · have hlt : j < i := lt_of_le_of_ne hge (Ne.symm hij)
      have := horder j i hlt hi
      linarith


/-- C4: for every weight list and every rectangle (a rectangle has
nonnegative extents), the rectangles `squarify` returns are pairwise
non-overlapping, the sum of their areas is at most the input rectangle's
area, and there are at most as many output items as input items. -/
theorem C4_layout (weights : List (NodeId × ℚ)) (area : Rect)
    (hw : 0 ≤ area.w) (hh : 0 ≤ area.h) :
    (squarify weights area).length ≤ weights.length ∧
    ((squarify weights area).map (fun it => it.rect.w * it.rect.h)).sum ≤ area.w * area.h ∧
    (∀ i j, i < (squarify weights area).length → j < (squarify weights area).length → i ≠ j →
      ¬ Rect.Overlaps ((squarify weights area).getD i default).rect
        ((squarify weights area).getD j default).rect) := by
  by_cases hguard : (weights.filter (fun p => 0 < p.2)) = [] ∨ area.w ≤ 0 ∨ area.h ≤ 0
  · have e : squarify weights area = [] := by
      simp only [squarify]
      rw [if_pos hguard]
    rw [e]
    refine ⟨by simp, by simpa using mul_nonneg hw hh, by simp⟩
  · by_cases htz : ((sortByWeightDesc (weights.filter (fun p => 0 < p.2))).map (·.2)).sum ≤ 0
    · have e : squarify weights area = [] := by
        simp only [squarify]
        rw [if_neg hguard, if_pos htz]
      rw [e]
      refine ⟨by simp, by simpa using mul_nonneg hw hh, by simp⟩
    · have e : squarify weights area =
          squarifyLoop (decide (area.h ≤ area.w))
            ((sortByWeightDesc (weights.filter (fun p => 0 < p.2))).map (·.2)).sum
            (sortByWeightDesc (weights.filter (fun p => 0 < p.2)))
            area.x area.y area.w area.h := by
        simp only [squarify]
        rw [if_neg hguard, if_neg htz]
      push_neg at htz
      have hpos_sorted : ∀ p ∈ sortByWeightDesc (weights.filter (fun p => 0 < p.2)), 0 < p.2 := by
        intro p hp
        have hp2 : p ∈ weights.filter (fun p => 0 < p.2) :=
          (sortByWeightDesc_perm _).mem_iff.mp hp
        have := (List.mem_filter.mp hp2).2
        exact of_decide_eq_true this
      have hlen_sorted : (sortByWeightDesc (weights.filter (fun p => 0 < p.2))).length
          ≤ weights.length := by
        have h1 : (sortByWeightDesc (weights.filter (fun p => 0 < p.2))).length
            = (weights.filter (fun p => 0 < p.2)).length :=
          (sortByWeightDesc_perm _).length_eq
        rw [h1]
        exact List.length_filter_le _ _
      by_cases hc : area.h ≤ area.w
      · have hd : decide (area.h ≤ area.w) = true := decide_eq_true hc
        rw [e, hd]
        obtain ⟨m1, m2⟩ := hloop_main _ htz _ area.x area.y area.w area.h hpos_sorted le_rfl hw hh
        obtain ⟨l1, _, _, _⟩ := hloop_spec _ htz _ area.x area.y area.w area.h hpos_sorted le_rfl hw
        exact ⟨le_trans l1 hlen_sorted, m1, m2⟩
      · have hd : decide (area.h ≤ area.w) = false := decide_eq_false hc
        rw [e, hd]
        obtain ⟨m1, m2⟩ := vloop_main _ htz _ area.x area.y area.w area.h hpos_sorted le_rfl hw hh
        obtain ⟨l1, _, _, _⟩ := vloop_spec _ htz _ area.x area.y area.w area.h hpos_sorted le_rfl hh
        exact ⟨le_trans l1 hlen_sorted, m1, m2⟩


theorem getD_mem {α : Type} [Inhabited α] {l : List α} {k : Nat} (hk : k < l.length) :
    l.getD k default ∈ l := by
  rw [List.getD_eq_getElem?_getD, List.getElem?_eq_getElem hk]
  exact List.getElem_mem hk

/-- C3 (amended): every retained item's slice is cut from the remaining
rectangle in proportion `weight / total`, where `total` is the sum of all
retained weights computed once before the loop (not the weight of the
items not yet placed), and the remaining rectangle shrinks by exactly
that slice (its near edge sits at the origin edge plus the sum of the
already-emitted slice extents). -/
theorem C3_slice_fraction (weights : List (NodeId × ℚ)) (area : Rect) (k : Nat)
    (hk : k < (squarify weights area).length) :
    (area.h ≤ area.w →
      ((squarify weights area).getD k default).rect.y = area.y ∧
      ((squarify weights area).getD k default).rect.h = area.h ∧
      ((squarify weights area).getD k default).rect.x
        = area.x + (((squarify weights area).take k).map (·.rect.w)).sum ∧
      ((squarify weights area).getD k default).rect.w
        = (area.w - (((squarify weights area).take k).map (·.rect.w)).sum)
          * (((squarify weights area).getD k default).weight
             / ((weights.filter (fun p => 0 < p.2)).map (·.2)).sum)) ∧
    (¬ area.h ≤ area.w →
      ((squarify weights area).getD k default).rect.x = area.x ∧
      ((squarify weights area).getD k default).rect.w = area.w ∧
      ((squarify weights area).getD k default).rect.y
        = area.y + (((squarify weights area).take k).map (·.rect.h)).sum ∧
      ((squarify weights area).getD k default).rect.h
        = (area.h - (((squarify weights area).take k).map (·.rect.h)).sum)
          * (((squarify weights area).getD k default).weight
             / ((weights.filter (fun p => 0 < p.2)).map (·.2)).sum)) := by
  by_cases hguard : (weights.filter (fun p => 0 < p.2)) = [] ∨ area.w ≤ 0 ∨ area.h ≤ 0
  · have e : squarify weights area = [] := by
      simp only [squarify]
      rw [if_pos hguard]
    rw [e] at hk
    simp at hk
  · by_cases htz : ((sortByWeightDesc (weights.filter (fun p => 0 < p.2))).map (·.2)).sum ≤ 0
    · have e : squarify weights area = [] := by
        simp only [squarify]
        rw [if_neg hguard, if_pos htz]
      rw [e] at hk
      simp at hk
    · have e : squarify weights area =
          squarifyLoop (decide (area.h ≤ area.w))
            ((sortByWeightDesc (weights.filter (fun p => 0 < p.2))).map (·.2)).sum
            (sortByWeightDesc (weights.filter (fun p => 0 < p.2)))
            area.x area.y area.w area.h := by
        simp only [squarify]
        rw [if_neg hguard, if_neg htz]
      push_neg at htz
      have hpos_sorted : ∀ p ∈ sortByWeightDesc (weights.filter (fun p => 0 < p.2)), 0 < p.2 := by
        intro p hp
        have hp2 : p ∈ weights.filter (fun p => 0 < p.2) :=
          (sortByWeightDesc_perm _).mem_iff.mp hp
        exact of_decide_eq_true (List.mem_filter.mp hp2).2
      have hte : ((weights.filter (fun p => 0 < p.2)).map (·.2)).sum
          = ((sortByWeightDesc (weights.filter (fun p => 0 < p.2))).map (·.2)).sum :=
        (((sortByWeightDesc_perm _).map (·.2)).sum_eq).symm
      push_neg at hguard
      obtain ⟨hne, hwpos, hhpos⟩ := hguard
      by_cases hc : area.h ≤ area.w
      · have hd : decide (area.h ≤ area.w) = true := decide_eq_true hc
        rw [e, hd] at hk ⊢
        obtain ⟨_, _, l3, l4⟩ :=
          hloop_spec _ htz _ area.x area.y area.w area.h hpos_sorted le_rfl hwpos.le
        have hmem := getD_mem hk
        refine ⟨fun _ => ⟨(l3 _ hmem).1, (l3 _ hmem).2.1, (l4 k hk).1, ?_⟩,
          fun hc2 => absurd hc hc2⟩
        rw [hte]
        exact (l4 k hk).2
      · have hd : decide (area.h ≤ area.w) = false := decide_eq_false hc
        rw [e, hd] at hk ⊢
        obtain ⟨_, _, l3, l4⟩ :=
          vloop_spec _ htz _ area.x area.y area.w area.h hpos_sorted le_rfl hhpos.le
        have hmem := getD_mem hk
        refine ⟨fun hc2 => absurd hc2 hc,
          fun _ => ⟨(l3 _ hmem).1, (l3 _ hmem).2.1, (l4 k hk).1, ?_⟩⟩
        rw [hte]
        exact (l4 k hk).2


theorem squarify_pair_eq :
    squarify [((⟨0⟩ : NodeId), (1 : ℚ)), (⟨1⟩, 1)] ⟨0, 0, 4, 2⟩ =
      [⟨⟨0⟩, 1, ⟨0, 0, 2, 2⟩⟩, ⟨⟨1⟩, 1, ⟨2, 0, 1, 2⟩⟩] := by
  norm_num [squarify, squarifyLoop, sortByWeightDesc, insertByWeight, max_def]
  intro h
  simp at h

theorem squarify_single_eq :
    squarify [((⟨0⟩ : NodeId), (2 : ℚ))] ⟨0, 0, 3, 2⟩ = [⟨⟨0⟩, 2, ⟨0, 0, 3, 2⟩⟩] := by
  norm_num [squarify, squarifyLoop, sortByWeightDesc, insertByWeight, max_def]

/-- C3 (counterexample).  With weights 1 and 1 in a 4 x 2 rectangle the
second item receives width 1, not the width 2 that "proportional to
weight / remaining_total_weight" (here 1 / 1 of the remaining width 2)
would demand: the code divides by the full total, computed once. -/
theorem C3_counterexample :
    ((squarify [((⟨0⟩ : NodeId), (1 : ℚ)), (⟨1⟩, 1)] ⟨0, 0, 4, 2⟩).getD 1 default).rect.w ≠
      ((4 : ℚ) - ((squarify [((⟨0⟩ : NodeId), (1 : ℚ)), (⟨1⟩, 1)] ⟨0, 0, 4, 2⟩).getD 0
          default).rect.w)
        * (((squarify [((⟨0⟩ : NodeId), (1 : ℚ)), (⟨1⟩, 1)] ⟨0, 0, 4, 2⟩).getD 1
          default).weight / ((2 : ℚ) - 1)) := by
  rw [squarify_pair_eq]
  norm_num

/-- Witness for C3 (amended) at a concrete input. -/
theorem C3_slice_fraction_witness :
    ((squarify [((⟨0⟩ : NodeId), (2 : ℚ))] ⟨0, 0, 3, 2⟩).getD 0 default).rect.w
      = ((3 : ℚ) -
          (((squarify [((⟨0⟩ : NodeId), (2 : ℚ))] ⟨0, 0, 3, 2⟩).take 0).map (·.rect.w)).sum)
        * (((squarify [((⟨0⟩ : NodeId), (2 : ℚ))] ⟨0, 0, 3, 2⟩).getD 0 default).weight
           / (([((⟨0⟩ : NodeId), (2 : ℚ))].filter (fun p => 0 < p.2)).map (·.2)).sum) :=
  ((C3_slice_fraction [((⟨0⟩ : NodeId), (2 : ℚ))] ⟨0, 0, 3, 2⟩ 0
      (by rw [squarify_single_eq]; norm_num)).1 (by norm_num)).2.2.2



/-- Witness for C4 at a concrete input. -/
theorem C4_layout_witness :
    (0 : ℚ) ≤ 2 ∧
    ((squarify [((⟨0⟩ : NodeId), (1 : ℚ))] ⟨0, 0, 2, 2⟩).length ≤
       [((⟨0⟩ : NodeId), (1 : ℚ))].length ∧
     ((squarify [((⟨0⟩ : NodeId), (1 : ℚ))] ⟨0, 0, 2, 2⟩).map
        (fun it => it.rect.w * it.rect.h)).sum ≤ (2 : ℚ) * 2 ∧
     (∀ i j, i < (squarify [((⟨0⟩ : NodeId), (1 : ℚ))] ⟨0, 0, 2, 2⟩).length →
        j < (squarify [((⟨0⟩ : NodeId), (1 : ℚ))] ⟨0, 0, 2, 2⟩).length → i ≠ j →
        ¬ Rect.Overlaps
          ((squarify [((⟨0⟩ : NodeId), (1 : ℚ))] ⟨0, 0, 2, 2⟩).getD i default).rect
          ((squarify [((⟨0⟩ : NodeId), (1 : ℚ))] ⟨0, 0, 2, 2⟩).getD j default).rect)) :=
  ⟨by norm_num, C4_layout [((⟨0⟩ : NodeId), (1 : ℚ))] ⟨0, 0, 2, 2⟩ (by norm_num) (by norm_num)⟩

theorem stepEntry_no_done (st : WalkSt) (e : EntryEv)
    (h : ∀ m ∈ st.msgs, isDoneMsg m = false) :
    ∀ m ∈ (stepEntry st e).msgs, isDoneMsg m = false := by
  intro m hm
  match e with
  | .err s =>
    simp only [stepEntry, List.mem_append, List.mem_singleton] at hm
    rcases hm with hm | rfl
    · exact h m hm
    · rfl
  | .ok isFile path meta =>
    by_cases hf : isFile
    · subst hf
      match meta with
      | some sz =>
        simp only [stepEntry, if_pos, List.mem_append, List.mem_cons,
          List.not_mem_nil, or_false] at hm
        rcases hm with hm | rfl | rfl
        · exact h m hm
        · rfl
        · rfl
      | none =>
        simp only [stepEntry, if_pos, List.mem_append, List.mem_singleton] at hm
        rcases hm with hm | rfl
        · exact h m hm
        · rfl
    · have hf2 : isFile = false := Bool.eq_false_iff.mpr hf
      subst hf2
      simp only [stepEntry, Bool.false_eq_true, if_false] at hm
      exact h m hm

theorem runWalk_no_done (entries : List (Bool × EntryEv)) :
    ∀ st : WalkSt, (∀ m ∈ st.msgs, isDoneMsg m = false) →
      ∀ m ∈ (runWalk st entries).msgs, isDoneMsg m = false := by
  induction entries with
  | nil => intro st h; exact h
  | cons p rest ih =>
    obtain ⟨c, e⟩ := p
    intro st h
    by_cases hc : c
    · subst hc
      simpa only [runWalk, if_pos] using h
    · have hc2 : c = false := Bool.eq_false_iff.mpr hc
      subst hc2
      simp only [runWalk, Bool.false_eq_true, if_false]
      exact ih (stepEntry st e) (stepEntry_no_done st e h)

/-- C6: for every scan trace, including one ended by cancellation, the
message sequence of `Scanner::scan` contains exactly one `Done` message,
that message is last (no `File`, `Progress` or `Error` follows it), and
it carries the tree `build_tree` assembles from exactly the files the
walk collected.  In particular a cancelled scan still ends in `Done`,
never in an `Error` in its place. -/
theorem C6_done_terminal (root : MPath) (entries : List (Bool × EntryEv)) :
    ((scanMsgs root entries).filter isDoneMsg).length = 1 ∧
    (scanMsgs root entries).getLast? =
      some (ScanMsg.done (build_tree root (collectedFiles entries))) ∧
    (∀ m ∈ (scanMsgs root entries).dropLast, isDoneMsg m = false) := by
  have hnd : ∀ m ∈ (runWalk ⟨0, 0, 0, [], []⟩ entries).msgs, isDoneMsg m = false :=
    runWalk_no_done entries ⟨0, 0, 0, [], []⟩ (by intro m hm; simp at hm)
  refine ⟨?_, ?_, ?_⟩
  · simp only [scanMsgs, List.filter_append]
    have e1 : (runWalk ⟨0, 0, 0, [], []⟩ entries).msgs.filter isDoneMsg = [] := by
      rw [List.filter_eq_nil_iff]
      intro m hm
      simp [hnd m hm]
    rw [e1]
    simp [isDoneMsg]
  · simp only [scanMsgs, collectedFiles]
    rw [List.getLast?_concat]
  · simp only [scanMsgs]
    rw [List.dropLast_concat]
    exact hnd

/-- C9 (counterexample).  `Scanner::scan` exposes no caller-supplied
worker-thread count or traversal policy: every walker configuration it
builds equals `scanWalkConfig numCpus`.  Reading the claim as the
existence of a constructor from the optional worker count and the two
policy flags into the configurations `scan` can build that honors a
supplied count, no such constructor exists (with 8 logical CPUs, a
requested count of 3 would force 3 = 8). -/
theorem C9_counterexample :
    ¬ ∃ mk : Option Nat → Bool → Bool → WalkConfig,
        (∀ t hid ign, (mk (some t) hid ign).threads = t) ∧
        (∀ t hid ign, mk t hid ign = scanWalkConfig 8) := by
  rintro ⟨mk, h1, h2⟩
  have ha := h1 3 false false
  have hb := h2 (some 3) false false
  rw [hb] at ha
  simp [scanWalkConfig] at ha

/-- C9 (amended): the scanning operation accepts only a root path; its
walker configuration is fixed, with worker count always the logical CPU
count, hidden entries never skipped, the global gitignore disabled and
symlinks never followed. -/
theorem C9_fixed_config (numCpus : Nat) :
    (scanWalkConfig numCpus).threads = numCpus ∧
    (scanWalkConfig numCpus).hidden = false ∧
    (scanWalkConfig numCpus).gitGlobal = false ∧
    (scanWalkConfig numCpus).followLinks = false :=
  ⟨rfl, rfl, rfl, rfl⟩

theorem any_congr {α : Type} {l : List α} {p q : α → Bool}
    (h : ∀ a ∈ l, p a = q a) : l.any p = l.any q := by
  induction l with
  | nil => rfl
  | cons a t ih =>
    simp only [List.any_cons]
    rw [h a (by simp), ih (fun b hb => h b (by simp [hb]))]

theorem dfs_fold_length (tree : Tree) (direct : List Bool) (fuel : Nat)
    (ih : ∀ (st : List Bool) (id : NodeId), ((dfs tree direct fuel st id).1).length = st.length) :
    ∀ (cs : List NodeId) (acc : List Bool × Bool),
      ((cs.foldl (fun acc c =>
          ((dfs tree direct fuel acc.1 c).1, acc.2 || (dfs tree direct fuel acc.1 c).2))
        acc).1).length = acc.1.length := by
  intro cs
  induction cs with
  | nil => intro acc; rfl
  | cons c cs ihc =>
    intro acc
    rw [List.foldl_cons, ihc]
    exact ih acc.1 c

theorem dfs_length (tree : Tree) (direct : List Bool) :
    ∀ (fuel : Nat) (subtree : List Bool) (id : NodeId),
      ((dfs tree direct fuel subtree id).1).length = subtree.length := by
  intro fuel
  induction fuel with
  | zero => intro subtree id; rfl
  | succ fuel ih =>
    intro subtree id
    show ((_ : List Bool).set id.val _).length = _
    rw [List.length_set]
    exact dfs_fold_length tree direct fuel ih (tree.nodes.getD id.val default).children
      (subtree, false)

theorem dfs_snd_eq (tree : Tree) (direct : List Bool) :
    ∀ (fuel : Nat) (subtree : List Bool) (id : NodeId),
      (dfs tree direct fuel subtree id).2 = dfsVal tree direct fuel id.val := by
  intro fuel
  induction fuel with
  | zero => intro subtree id; rfl
  | succ fuel ih =>
    intro subtree id
    have hfold : ∀ (cs : List NodeId) (acc : List Bool × Bool),
        (cs.foldl (fun acc c =>
            ((dfs tree direct fuel acc.1 c).1, acc.2 || (dfs tree direct fuel acc.1 c).2))
          acc).2
          = (acc.2 || cs.any (fun c => dfsVal tree direct fuel c.val)) := by
      intro cs
      induction cs with
      | nil => intro acc; simp
      | cons c cs ihc =>
        intro acc
        rw [List.foldl_cons, ihc]
        simp only [List.any_cons]
        rw [ih acc.1 c]
        rw [Bool.or_assoc]
    show (_, direct.getD id.val false || _).2 = _
    simp only
    rw [hfold (tree.nodes.getD id.val default).children (subtree, false)]
    simp only [Bool.false_or]
    rfl

theorem reach_lt {t : Tree} (hwf : TreeWF t) {i j : Nat}
    (hi : i < t.nodes.length) (hr : ReachesFrom t i j) : j < t.nodes.length := by
  induction hr with
  | refl => exact hi
  | child c _ hc ih => exact (hwf _ ih c hc).2

theorem reach_trans {t : Tree} {a b c : Nat}
    (h1 : ReachesFrom t a b) (h2 : ReachesFrom t b c) : ReachesFrom t a c := by
  induction h2 with
  | refl => exact h1
  | child d _ hd ih => exact ReachesFrom.child d ih hd

theorem reach_first_step {t : Tree} {i j : Nat} (h : ReachesFrom t i j) :
    i = j ∨ ∃ c ∈ (t.nodes.getD i default).children, ReachesFrom t c.val j := by
  induction h with
  | refl => exact Or.inl rfl
  | child c hr hc ih =>
    rcases ih with rfl | ⟨d, hd, hrd⟩
    · exact Or.inr ⟨c, hc, ReachesFrom.refl _⟩
    · exact Or.inr ⟨d, hd, ReachesFrom.child c hrd hc⟩

theorem dfsVal_stable {t : Tree} {direct : List Bool} (hwf : TreeWF t) :
    ∀ (k idx fuel fuel' : Nat), idx < t.nodes.length → t.nodes.length - idx ≤ k →
      t.nodes.length - idx ≤ fuel → t.nodes.length - idx ≤ fuel' →
      dfsVal t direct fuel idx = dfsVal t direct fuel' idx := by
  intro k
  induction k with
  | zero =>
    intro idx fuel fuel' hidx hk _ _
    omega
  | succ k ih =>
    intro idx fuel fuel' hidx hk hf hf'
    have h1 : 1 ≤ t.nodes.length - idx := by omega
    obtain ⟨f, rfl⟩ : ∃ f, fuel = f + 1 := ⟨fuel - 1, by omega⟩
    obtain ⟨f', rfl⟩ : ∃ f', fuel' = f' + 1 := ⟨fuel' - 1, by omega⟩
    show (_ || _) = (_ || _)
    congr 1
    apply any_congr
    intro c hc
    obtain ⟨hlt, hbnd⟩ := hwf idx hidx c hc
    exact ih c.val f f' hbnd (by omega) (by omega) (by omega)

theorem dfs_writes {t : Tree} {direct : List Bool} (hwf : TreeWF t) :
    ∀ (fuel : Nat) (st : List Bool) (id : NodeId) (j : Nat),
      id.val < t.nodes.length → st.length = t.nodes.length →
      t.nodes.length - id.val ≤ fuel →
      (ReachesFrom t id.val j →
        ((dfs t direct fuel st id).1).getD j false = dfsVal t direct t.nodes.length j) ∧
      (¬ ReachesFrom t id.val j →
        ((dfs t direct fuel st id).1).getD j false = st.getD j false) := by
  intro fuel
  induction fuel with
  | zero =>
    intro st id j hid hst hf
    omega
  | succ fuel ih =>
    intro st id j hid hst hf
    have hchild : ∀ c ∈ (t.nodes.getD id.val default).children,
        id.val < c.val ∧ c.val < t.nodes.length := hwf id.val hid
    have hfold : ∀ (cs : List NodeId),
        (∀ c ∈ cs, id.val < c.val ∧ c.val < t.nodes.length) →
        ∀ (acc : List Bool × Bool), acc.1.length = t.nodes.length →
        ((∃ c ∈ cs, ReachesFrom t c.val j) →
          ((cs.foldl (fun acc c =>
              ((dfs t direct fuel acc.1 c).1, acc.2 || (dfs t direct fuel acc.1 c).2))
            acc).1).getD j false = dfsVal t direct t.nodes.length j) ∧
        ((¬ ∃ c ∈ cs, ReachesFrom t c.val j) →
          ((cs.foldl (fun acc c =>
              ((dfs t direct fuel acc.1 c).1, acc.2 || (dfs t direct fuel acc.1 c).2))
            acc).1).getD j false = acc.1.getD j false) := by
      intro cs
      induction cs with
      | nil =>
        intro _ acc _
        refine ⟨?_, fun _ => rfl⟩
        rintro ⟨c, hc, -⟩
        exact absurd hc (List.not_mem_nil c)
      | cons c cs ihc =>
        intro hcs acc hacc
        rw [List.foldl_cons]
        have hc := hcs c (by simp)
        have hlen1 : ((dfs t direct fuel acc.1 c).1).length = t.nodes.length := by
          rw [dfs_length]; exact hacc
        have hrec := ih acc.1 c j hc.2 hacc (by omega)
        have hnext := ihc (fun d hd => hcs d (by simp [hd]))
          ((dfs t direct fuel acc.1 c).1, acc.2 || (dfs t direct fuel acc.1 c).2)
          hlen1
        constructor
        · rintro ⟨d, hd, hrd⟩
          rcases List.mem_cons.mp hd with rfl | hd2
          · by_cases hex : ∃ d ∈ cs, ReachesFrom t d.val j
            · exact hnext.1 hex
            · rw [hnext.2 hex]
              exact hrec.1 hrd
          · exact hnext.1 ⟨d, hd2, hrd⟩
        · intro hnone
          have hex : ¬ ∃ d ∈ cs, ReachesFrom t d.val j := by
            rintro ⟨d, hd2, hrd⟩
            exact hnone ⟨d, by simp [hd2], hrd⟩
          have hc1 : ¬ ReachesFrom t c.val j := by
            intro hr
            exact hnone ⟨c, by simp, hr⟩
          rw [hnext.2 hex]
          exact hrec.2 hc1
    have hA : (direct.getD id.val false ||
        ((t.nodes.getD id.val default).children.foldl (fun acc c =>
          ((dfs t direct fuel acc.1 c).1, acc.2 || (dfs t direct fuel acc.1 c).2))
          (st, false)).2) = dfsVal t direct t.nodes.length id.val := by
      have h1 : (dfs t direct (fuel + 1) st id).2 = dfsVal t direct (fuel + 1) id.val :=
        dfs_snd_eq t direct (fuel + 1) st id
      have h2 : (dfs t direct (fuel + 1) st id).2
          = (direct.getD id.val false ||
            ((t.nodes.getD id.val default).children.foldl (fun acc c =>
              ((dfs t direct fuel acc.1 c).1, acc.2 || (dfs t direct fuel acc.1 c).2))
              (st, false)).2) := rfl
      rw [← h2, h1]
      exact dfsVal_stable hwf (t.nodes.length - id.val) id.val (fuel + 1) t.nodes.length
        hid le_rfl (by omega) (by omega)
    have hFlen : (((t.nodes.getD id.val default).children.foldl (fun acc c =>
        ((dfs t direct fuel acc.1 c).1, acc.2 || (dfs t direct fuel acc.1 c).2))
        (st, false)).1).length = t.nodes.length := by
      rw [dfs_fold_length t direct fuel (fun st2 id2 => dfs_length t direct fuel st2 id2)]
      exact hst
    have hd1 : (dfs t direct (fuel + 1) st id).1
        = (((t.nodes.getD id.val default).children.foldl (fun acc c =>
            ((dfs t direct fuel acc.1 c).1, acc.2 || (dfs t direct fuel acc.1 c).2))
            (st, false)).1).set id.val
          (direct.getD id.val false ||
            ((t.nodes.getD id.val default).children.foldl (fun acc c =>
              ((dfs t direct fuel acc.1 c).1, acc.2 || (dfs t direct fuel acc.1 c).2))
              (st, false)).2) := rfl
    rw [hd1, hA]
    by_cases hj : j = id.val
    · subst hj
      rw [List.getD_eq_getElem?_getD, List.getElem?_set_self (by rw [hFlen]; exact hid)]
      exact ⟨fun _ => rfl, fun hn => absurd (ReachesFrom.refl id.val) hn⟩
    · rw [List.getD_eq_getElem?_getD, List.getElem?_set_ne (fun h => hj h.symm),
        ← List.getD_eq_getElem?_getD]
      have hmain := hfold (t.nodes.getD id.val default).children hchild (st, false) hst
      constructor
      · intro hr
        rcases reach_first_step hr with rfl | ⟨c, hc, hrc⟩
        · exact absurd rfl hj
        · exact hmain.1 ⟨c, hc, hrc⟩
      · intro hr
        refine (hmain.2 ?_)
        rintro ⟨c, hc, hrc⟩
        exact hr (reach_trans (ReachesFrom.child c (ReachesFrom.refl id.val) hc) hrc)

/-- C5 (amended): for every needle and every tree whose child links are
well formed (child indices in bounds and strictly increasing, as in
every tree `build_tree` produces) with an in-bounds root, every node
reachable from the root satisfies
`subtree_matches[n] = direct_matches[n] OR (OR over children c of
subtree_matches[c])`. -/
theorem C5_subtree_or (needle : String) (tree : Tree) (hwf : TreeWF tree)
    (hroot : tree.root.val < tree.nodes.length) (id : NodeId)
    (hreach : ReachesFrom tree tree.root.val id.val) :
    (SearchFilter.build needle tree).subtree_matches.getD id.val false =
      ((SearchFilter.build needle tree).direct_matches.getD id.val false
        || (tree.nodes.getD id.val default).children.any
             (fun c => (SearchFilter.build needle tree).subtree_matches.getD c.val false)) := by
  have hne : tree.nodes ≠ [] := by
    intro h
    rw [h] at hroot
    simp at hroot
  set D := tree.nodes.map (fun node =>
      let matched := strContains (asciiLower node.name) (asciiLower needle)
      if matched then matched
      else strContains (asciiLower (pathToLossy node.path)) (asciiLower needle)) with hD
  have hsub : (SearchFilter.build needle tree).subtree_matches
      = (dfs tree D tree.nodes.length
          (List.replicate tree.nodes.length false) tree.root).1 := by
    show (if tree.nodes = [] then _ else _) = _
    rw [if_neg hne]
  have hdir : (SearchFilter.build needle tree).direct_matches = D := rfl
  have hid : id.val < tree.nodes.length := reach_lt hwf hroot hreach
  have hstlen : (List.replicate tree.nodes.length false).length = tree.nodes.length := by
    simp
  have hself : (SearchFilter.build needle tree).subtree_matches.getD id.val false
      = dfsVal tree D tree.nodes.length id.val := by
    rw [hsub]
    exact (dfs_writes hwf tree.nodes.length _ tree.root id.val hroot hstlen (by omega)).1 hreach
  have hchildval : ∀ c ∈ (tree.nodes.getD id.val default).children,
      (SearchFilter.build needle tree).subtree_matches.getD c.val false
        = dfsVal tree D tree.nodes.length c.val := by
    intro c hc
    rw [hsub]
    exact (dfs_writes hwf tree.nodes.length _ tree.root c.val hroot hstlen (by omega)).1
      (ReachesFrom.child c hreach hc)
  rw [hself, hdir]
  obtain ⟨m, hm⟩ : ∃ m, tree.nodes.length = m + 1 := ⟨tree.nodes.length - 1, by omega⟩
  have hunfold : dfsVal tree D tree.nodes.length id.val
      = (D.getD id.val false ||
        (tree.nodes.getD id.val default).children.any
          (fun c => dfsVal tree D m c.val)) := by
    rw [hm]
    rfl
  rw [hunfold]
  congr 1
  apply any_congr
  intro c hc
  obtain ⟨hlt, hbnd⟩ := hwf id.val hid c hc
  rw [hchildval c hc]
  exact dfsVal_stable hwf (tree.nodes.length - c.val) c.val m tree.nodes.length hbnd
    le_rfl (by omega) (by omega)

/-- C10: `SearchFilter::build` returns bitsets whose lengths equal the
node count of the tree it was built from, so `matches_node` and
`matches_subtree` succeed (return a value) for every in-bounds `NodeId`
and panic (modelled as `none`) for every `NodeId` whose index is at
least the node count. -/
theorem C10_filter_bounds (needle : String) (tree : Tree) :
    (SearchFilter.build needle tree).direct_matches.length = tree.nodes.length ∧
    (SearchFilter.build needle tree).subtree_matches.length = tree.nodes.length ∧
    (∀ id : NodeId, id.val < tree.nodes.length →
       ((SearchFilter.build needle tree).matches_node id).isSome = true ∧
       ((SearchFilter.build needle tree).matches_subtree id).isSome = true) ∧
    (∀ id : NodeId, tree.nodes.length ≤ id.val →
       (SearchFilter.build needle tree).matches_node id = none ∧
       (SearchFilter.build needle tree).matches_subtree id = none) := by
  have hdlen : (SearchFilter.build needle tree).direct_matches.length = tree.nodes.length := by
    show (tree.nodes.map _).length = _
    rw [List.length_map]
  have hsubif : (SearchFilter.build needle tree).subtree_matches
      = (if tree.nodes = [] then List.replicate tree.nodes.length false
         else (dfs tree (tree.nodes.map (fun node =>
             let matched := strContains (asciiLower node.name) (asciiLower needle)
             if matched then matched
             else strContains (asciiLower (pathToLossy node.path)) (asciiLower needle)))
           tree.nodes.length (List.replicate tree.nodes.length false) tree.root).1) := rfl
  have hslen : (SearchFilter.build needle tree).subtree_matches.length = tree.nodes.length := by
    rw [hsubif]
    split
    · simp
    · rw [dfs_length]
      simp
  refine ⟨hdlen, hslen, ?_, ?_⟩
  · intro id hidv
    constructor
    · show ((SearchFilter.build needle tree).direct_matches.get? id.val).isSome = true
      rw [List.get?_eq_getElem?, List.getElem?_eq_getElem (by rw [hdlen]; exact hidv)]
      rfl
    · show ((SearchFilter.build needle tree).subtree_matches.get? id.val).isSome = true
      rw [List.get?_eq_getElem?, List.getElem?_eq_getElem (by rw [hslen]; exact hidv)]
      rfl
  · intro id hidv
    constructor
    · show (SearchFilter.build needle tree).direct_matches.get? id.val = none
      rw [List.get?_eq_getElem?]
      exact List.getElem?_eq_none (by rw [hdlen]; exact hidv)
    · show (SearchFilter.build needle tree).subtree_matches.get? id.val = none
      rw [List.get?_eq_getElem?]
      exact List.getElem?_eq_none (by rw [hslen]; exact hidv)

/-- C5 (counterexample).  The claim quantifies over every node of every
tree; `dfs` only writes `subtree_matches` for nodes reachable from the
root.  In `c5Tree` the needle matches node 1 directly
(`direct_matches[1] = true`, node 1 has no children) yet
`subtree_matches[1]` stays `false`, so the claimed equation fails at
node 1. -/
theorem C5_counterexample :
    (SearchFilter.build "match" c5Tree).direct_matches.getD 1 false = true ∧
    (c5Tree.nodes.getD 1 default).children = [] ∧
    ¬ ((SearchFilter.build "match" c5Tree).subtree_matches.getD 1 false
      = ((SearchFilter.build "match" c5Tree).direct_matches.getD 1 false
        || (c5Tree.nodes.getD 1 default).children.any
             (fun c => (SearchFilter.build "match" c5Tree).subtree_matches.getD
               c.val false))) := by
  decide

/-- Witness for C5 (amended) at a concrete tree. -/
theorem C5_subtree_or_witness :
    (SearchFilter.build "a" (build_tree [OsStr.valid "/"] [])).subtree_matches.getD 0 false
      = ((SearchFilter.build "a" (build_tree [OsStr.valid "/"] [])).direct_matches.getD 0 false
        || ((build_tree [OsStr.valid "/"] []).nodes.getD 0 default).children.any
             (fun c => (SearchFilter.build "a"
                 (build_tree [OsStr.valid "/"] [])).subtree_matches.getD c.val false)) :=
  C5_subtree_or "a" (build_tree [OsStr.valid "/"] [])
    (by
      intro i hi c hc
      have e : (build_tree [OsStr.valid "/"] []).nodes.length = 1 := rfl
      rw [e] at hi
      interval_cases i
      have e2 : ((build_tree [OsStr.valid "/"] []).nodes.getD 0 default).children = [] := rfl
      rw [e2] at hc
      exact absurd hc (List.not_mem_nil c))
    (by decide) ⟨0⟩ (ReachesFrom.refl 0)

/-- Witness for C10 at a concrete filter and ids. -/
theorem C10_filter_bounds_witness :
    ((SearchFilter.build "a" (build_tree [OsStr.valid "/"] [])).matches_node ⟨0⟩).isSome
      = true ∧
    (SearchFilter.build "a" (build_tree [OsStr.valid "/"] [])).matches_node ⟨5⟩ = none :=
  ⟨((C10_filter_bounds "a" (build_tree [OsStr.valid "/"] [])).2.2.1 ⟨0⟩ (by decide)).1,
   ((C10_filter_bounds "a" (build_tree [OsStr.valid "/"] [])).2.2.2 ⟨5⟩ (by decide)).1⟩

end Treesize

/-! ## C1: the aggregation invariant of the tree builder

The chain below proves the amended C1: step characterizations of
`ensure_dir`, `addFileNode` and `propagate`, an invariant `Inv`
carried through the per-file fold, and a correspondence between the
parent-pointer ancestor walk and strict path-prefix relations. -/

namespace Treesize

theorem parentPath_eq_dropLast {p q : MPath} (h : parentPath p = some q) :
    q = p.dropLast := by
  match p with
  | [] => simp [parentPath] at h
  | [c] =>
    have e : parentPath [c] = if c = rootComp then none else some [] := rfl
    rw [e] at h
    split at h
    · exact absurd h (by simp)
    · simp only [Option.some.injEq] at h
      subst h
      rfl
  | a :: b :: t =>
    have e : parentPath (a :: b :: t) = some (a :: b :: t).dropLast := rfl
    rw [e] at h
    simp only [Option.some.injEq] at h
    exact h.symm

theorem parentPath_of_strict {root q : MPath} (hroot : root ≠ [])
    (hpre : root <+: q) (hne : q ≠ root) :
    parentPath q = some q.dropLast ∧ root <+: q.dropLast ∧ q.dropLast ≠ q := by
  obtain ⟨s, rfl⟩ := hpre
  have hs : s ≠ [] := by
    intro h
    subst h
    simp at hne
  obtain ⟨a, t, rfl⟩ : ∃ a t, root = a :: t := by
    match root with
    | [] => exact absurd rfl hroot
    | a :: t => exact ⟨a, t, rfl⟩
  obtain ⟨b, u, rfl⟩ : ∃ b u, s = b :: u := by
    match s with
    | [] => exact absurd rfl hs
    | b :: u => exact ⟨b, u, rfl⟩
  have hlen : 2 ≤ ((a :: t) ++ b :: u).length := by
    simp
    omega
  have hpp : parentPath ((a :: t) ++ b :: u) = some ((a :: t) ++ b :: u).dropLast := by
    match e : (a :: t) ++ b :: u with
    | [] => simp at e
    | [c] =>
      rw [e] at hlen
      simp at hlen
    | c :: d :: v => rfl
  refine ⟨hpp, ?_, ?_⟩
  · rw [List.dropLast_append_of_ne_nil _ (by simp : (b :: u) ≠ [])]
    exact List.prefix_append _ _
  · intro h
    have hl := congrArg List.length h
    rw [List.length_dropLast] at hl
    simp only [List.length_append, List.length_cons] at hl
    omega

theorem strict_prefix_iff_dropLast {d q : MPath} (hq : q ≠ []) :
    (d <+: q ∧ d ≠ q) ↔ d <+: q.dropLast := by
  constructor
  · rintro ⟨hpre, hne⟩
    have hlt : d.length < q.length := by
      rcases Nat.lt_or_ge d.length q.length with h | h
      · exact h
      · exact absurd (List.IsPrefix.eq_of_length_le hpre h) hne
    rw [List.prefix_iff_eq_take] at hpre ⊢
    rw [List.dropLast_eq_take, List.take_take]
    have : min d.length (q.length - 1) = d.length := by omega
    rw [this]
    exact hpre
  · intro h
    have h1 : d <+: q := h.trans (List.dropLast_prefix q)
    refine ⟨h1, ?_⟩
    intro he
    subst he
    have hle := h.length_le
    rw [List.length_dropLast] at hle
    have hpos : 0 < d.length := List.length_pos.mpr hq
    omega

theorem lookup_cons (q : MPath) (i : Nat) (m : List (MPath × Nat)) (q' : MPath) :
    lookupPath ((q, i) :: m) q' = if q = q' then some i else lookupPath m q' := by
  unfold lookupPath
  rw [List.find?_cons]
  by_cases h : q = q'
  · rw [if_pos h]
    have : (decide ((q, i).1 = q')) = true := by simp [h]
    rw [this]
    rfl
  · rw [if_neg h]
    have : (decide ((q, i).1 = q')) = false := by simp [h]
    rw [this]

theorem modify_getD_ne (f : TreeNode → TreeNode) (k i : Nat) (l : List TreeNode)
    (h : k ≠ i) : (List.modify f k l).getD i default = l.getD i default := by
  rw [List.getD_eq_getElem?_getD, List.getElem?_modify, List.getD_eq_getElem?_getD]
  rcases e : l[i]? with - | v
  · rfl
  · simp [h]

theorem modify_getD_self (f : TreeNode → TreeNode) (i : Nat) (l : List TreeNode)
    (h : i < l.length) : (List.modify f i l).getD i default = f (l.getD i default) := by
  rw [List.getD_eq_getElem?_getD, List.getElem?_modify, List.getD_eq_getElem?_getD]
  rw [List.getElem?_eq_getElem h]
  simp

theorem getD_append_self (l : List TreeNode) (a : TreeNode) :
    (l ++ [a]).getD l.length default = a := by
  rw [List.getD_eq_getElem?_getD, List.getElem?_concat_length]
  rfl

theorem getD_append_lt (l l' : List TreeNode) (i : Nat) (h : i < l.length) :
    (l ++ l').getD i default = l.getD i default :=
  List.getD_append l l' default i h

theorem filesUnder_ext {nodes nodes' : List TreeNode}
    (hlen : nodes.length ≤ nodes'.length)
    (hcore : ∀ i, i < nodes.length → coreEq (nodes'.getD i default) (nodes.getD i default))
    (hnew : ∀ i, nodes.length ≤ i → i < nodes'.length →
      (nodes'.getD i default).kind ≠ NodeKind.File) (q : MPath) :
    sumFilesUnder nodes' q = sumFilesUnder nodes q ∧
    countFilesUnder nodes' q = countFilesUnder nodes q ∧
    fileCnt nodes' = fileCnt nodes := by
  obtain ⟨m, hm⟩ : ∃ m, nodes'.length = nodes.length + m := ⟨nodes'.length - nodes.length, by omega⟩
  have hrange : List.range nodes'.length
      = List.range nodes.length ++ (List.range m).map (nodes.length + ·) := by
    rw [hm, List.range_add]
  have hsecond : ∀ (p : Nat → Bool),
      (∀ i, nodes.length ≤ i → i < nodes'.length → p i = false) →
      ((List.range m).map (nodes.length + ·)).filter p = [] := by
    intro p hp
    rw [List.filter_eq_nil_iff]
    intro a ha
    obtain ⟨k, hk, rfl⟩ := List.mem_map.mp ha
    have hk2 : k < m := List.mem_range.mp hk
    simp only [hp (nodes.length + k) (by omega) (by omega)]
    simp
  have hpredS : ∀ i ∈ List.range nodes.length,
      (decide ((nodes'.getD i default).kind = NodeKind.File)
        && underB q (nodes'.getD i default).path)
      = (decide ((nodes.getD i default).kind = NodeKind.File)
        && underB q (nodes.getD i default).path) := by
    intro i hi
    have hi2 : i < nodes.length := List.mem_range.mp hi
    obtain ⟨hp, hk, _, _, _⟩ := hcore i hi2
    rw [hp, hk]
  have hpredC : ∀ i ∈ List.range nodes.length,
      (decide ((nodes'.getD i default).kind = NodeKind.File) : Bool)
      = (decide ((nodes.getD i default).kind = NodeKind.File) : Bool) := by
    intro i hi
    have hi2 : i < nodes.length := List.mem_range.mp hi
    obtain ⟨hp, hk, _, _, _⟩ := hcore i hi2
    rw [hk]
  have hnewS : ∀ i, nodes.length ≤ i → i < nodes'.length →
      (decide ((nodes'.getD i default).kind = NodeKind.File)
        && underB q (nodes'.getD i default).path) = false := by
    intro i h1 h2
    rw [decide_eq_false (hnew i h1 h2), Bool.false_and]
  have hnewC : ∀ i, nodes.length ≤ i → i < nodes'.length →
      (decide ((nodes'.getD i default).kind = NodeKind.File) : Bool) = false := by
    intro i h1 h2
    exact decide_eq_false (hnew i h1 h2)
  refine ⟨?_, ?_, ?_⟩
  · unfold sumFilesUnder
    rw [hrange, List.filter_append, hsecond _ hnewS, List.append_nil,
      List.filter_congr hpredS]
    apply congrArg
    apply List.map_congr_left
    intro i hi
    have hi2 : i < nodes.length := List.mem_range.mp (List.mem_of_mem_filter hi)
    exact (hcore i hi2).2.2.1
  · unfold countFilesUnder
    rw [hrange, List.filter_append, hsecond _ hnewS, List.append_nil,
      List.filter_congr hpredS]
  · unfold fileCnt
    rw [hrange, List.filter_append, hsecond _ hnewC, List.append_nil,
      List.filter_congr hpredC]

theorem filesUnder_snoc_file {nodes : List TreeNode} {fnode : TreeNode}
    (hk : fnode.kind = NodeKind.File) (q : MPath) :
    sumFilesUnder (nodes ++ [fnode]) q
      = sumFilesUnder nodes q + (if underB q fnode.path then fnode.size else 0) ∧
    countFilesUnder (nodes ++ [fnode]) q
      = countFilesUnder nodes q + (if underB q fnode.path then 1 else 0) ∧
    fileCnt (nodes ++ [fnode]) = fileCnt nodes + 1 := by
  have hlen : (nodes ++ [fnode]).length = nodes.length + 1 := by simp
  have hrange : List.range (nodes ++ [fnode]).length
      = List.range nodes.length ++ [nodes.length] := by
    rw [hlen, List.range_succ]
  have hcongrS : ∀ i ∈ List.range nodes.length,
      (decide (((nodes ++ [fnode]).getD i default).kind = NodeKind.File)
        && underB q ((nodes ++ [fnode]).getD i default).path)
      = (decide ((nodes.getD i default).kind = NodeKind.File)
        && underB q (nodes.getD i default).path) := by
    intro i hi
    rw [getD_append_lt _ _ _ (List.mem_range.mp hi)]
  have hcongrC : ∀ i ∈ List.range nodes.length,
      (decide (((nodes ++ [fnode]).getD i default).kind = NodeKind.File) : Bool)
      = (decide ((nodes.getD i default).kind = NodeKind.File) : Bool) := by
    intro i hi
    rw [getD_append_lt _ _ _ (List.mem_range.mp hi)]
  have hlast : (nodes ++ [fnode]).getD nodes.length default = fnode := getD_append_self _ _
  refine ⟨?_, ?_, ?_⟩
  · unfold sumFilesUnder
    rw [hrange, List.filter_append, List.filter_congr hcongrS]
    rw [List.map_append, List.sum_append]
    congr 1
    · apply congrArg
      apply List.map_congr_left
      intro i hi
      have hi2 : i < nodes.length := List.mem_range.mp (List.mem_of_mem_filter hi)
      rw [getD_append_lt _ _ _ hi2]
    · show ((List.filter _ [nodes.length]).map _).sum = _
      rw [List.filter_singleton]
      rw [hlast, hk]
      by_cases hu : underB q fnode.path
      · simp [hu, hlast]
      · simp [hu]
  · unfold countFilesUnder
    rw [hrange, List.filter_append, List.filter_congr hcongrS, List.length_append]
    congr 1
    rw [List.filter_singleton, hlast, hk]
    by_cases hu : underB q fnode.path
    · simp [hu]
    · simp [hu]
  · unfold fileCnt
    rw [hrange, List.filter_append, List.filter_congr hcongrC, List.length_append]
    congr 1
    rw [List.filter_singleton, hlast, hk]
    simp


theorem propagate_step_hit (root : MPath) (m : List (MPath × Nat)) (sz fuel : Nat)
    (dir : MPath) (nodes : List TreeNode) (did : Nat)
    (hdid : lookupPath m dir = some did) :
    propagate root m sz (fuel + 1) dir nodes
      = (if dir = root then
          List.modify (fun nd =>
            { nd with size := satAdd128 nd.size sz,
                      file_count := satAdd64 nd.file_count 1 }) did nodes
        else
          match parentPath dir with
          | some par => propagate root m sz fuel par
              (List.modify (fun nd =>
                { nd with size := satAdd128 nd.size sz,
                          file_count := satAdd64 nd.file_count 1 }) did nodes)
          | none =>
              List.modify (fun nd =>
                { nd with size := satAdd128 nd.size sz,
                          file_count := satAdd64 nd.file_count 1 }) did nodes) := by
  simp only [propagate, hdid]


theorem propagate_step_root (root : MPath) (m : List (MPath × Nat)) (sz fuel : Nat)
    (dir : MPath) (nodes : List TreeNode) (did : Nat)
    (hdid : lookupPath m dir = some did) (hdr : dir = root) :
    propagate root m sz (fuel + 1) dir nodes
      = List.modify (fun nd =>
          { nd with size := satAdd128 nd.size sz,
                    file_count := satAdd64 nd.file_count 1 }) did nodes := by
  rw [propagate_step_hit root m sz fuel dir nodes did hdid, if_pos hdr]

theorem propagate_step_go (root : MPath) (m : List (MPath × Nat)) (sz fuel : Nat)
    (dir par : MPath) (nodes : List TreeNode) (did : Nat)
    (hdid : lookupPath m dir = some did) (hdr : ¬ dir = root)
    (hpp : parentPath dir = some par) :
    propagate root m sz (fuel + 1) dir nodes
      = propagate root m sz fuel par
          (List.modify (fun nd =>
            { nd with size := satAdd128 nd.size sz,
                      file_count := satAdd64 nd.file_count 1 }) did nodes) := by
  rw [propagate_step_hit root m sz fuel dir nodes did hdid, if_neg hdr, hpp]


theorem propagate_char (root : MPath) (hroot : root ≠ []) (m : List (MPath × Nat)) (sz : Nat) :
    ∀ (fuel : Nat) (dir : MPath) (nodes : List TreeNode),
      root <+: dir → dir.length + 1 ≤ fuel →
      (∀ q i, lookupPath m q = some i →
        i < nodes.length ∧ (nodes.getD i default).path = q) →
      (∀ q i, lookupPath m q = some i → root <+: q) →
      (∀ q', root <+: q' → q' <+: dir → ∃ i', lookupPath m q' = some i') →
      (propagate root m sz fuel dir nodes).length = nodes.length ∧
      ∀ j, (propagate root m sz fuel dir nodes).getD j default =
        (if lookupPath m ((nodes.getD j default).path) = some j ∧
            (nodes.getD j default).path <+: dir
         then { nodes.getD j default with
                size := satAdd128 (nodes.getD j default).size sz,
                file_count := satAdd64 (nodes.getD j default).file_count 1 }
         else nodes.getD j default) := by
  intro fuel
  induction fuel with
  | zero =>
    intro dir nodes _ hfuel _ _ _
    omega
  | succ fuel ih =>
    intro dir nodes hdir hfuel hms hunder hclosed
    obtain ⟨did, hdid⟩ := hclosed dir hdir (List.prefix_refl dir)
    obtain ⟨hdlt, hdpath⟩ := hms dir did hdid
    have hrootlen : 0 < root.length := List.length_pos.mpr hroot
    have hdirlen : 0 < dir.length := by
      have := hdir.length_le
      omega
    have hdirne : dir ≠ [] := by
      intro h
      rw [h] at hdirlen
      simp at hdirlen
    by_cases hdr : dir = root
    · rw [propagate_step_root root m sz fuel dir nodes did hdid hdr]
      refine ⟨List.length_modify _ _ _, ?_⟩
      intro j
      by_cases hj : j = did
      · subst hj
        have hc1 : lookupPath m ((nodes.getD j default).path) = some j := by
          rw [hdpath]
          exact hdid
        have hc2 : (nodes.getD j default).path <+: dir := by
          rw [hdpath]
        rw [modify_getD_self _ _ _ hdlt, if_pos ⟨hc1, hc2⟩]
      · rw [modify_getD_ne _ _ _ _ (fun h => hj h.symm), if_neg ?_]
        rintro ⟨hl, hp⟩
        have hru := hunder _ _ hl
        rw [hdr] at hp
        have heq : root = (nodes.getD j default).path := hru.eq_of_length_le hp.length_le
        rw [← heq, ← hdr, hdid] at hl
        exact hj (Option.some.inj hl).symm
    · obtain ⟨hpp, hpar_pre, hpar_ne⟩ := parentPath_of_strict hroot hdir hdr
      rw [propagate_step_go root m sz fuel dir dir.dropLast nodes did hdid hdr hpp]
      have hlen2 : (List.modify (fun nd =>
          { nd with size := satAdd128 nd.size sz,
                    file_count := satAdd64 nd.file_count 1 }) did nodes).length
          = nodes.length := List.length_modify _ _ _
      have hpath2 : ∀ i, ((List.modify (fun nd =>
          { nd with size := satAdd128 nd.size sz,
                    file_count := satAdd64 nd.file_count 1 }) did nodes).getD i
            default).path = (nodes.getD i default).path := by
        intro i
        by_cases hi : i = did
        · subst hi
          rw [modify_getD_self _ _ _ hdlt]
        · rw [modify_getD_ne _ _ _ _ (fun h => hi h.symm)]
      obtain ⟨ihlen, ihchar⟩ := ih dir.dropLast
        (List.modify (fun nd =>
          { nd with size := satAdd128 nd.size sz,
                    file_count := satAdd64 nd.file_count 1 }) did nodes)
        hpar_pre
        (by rw [List.length_dropLast]; omega)
        (by
          intro q i hq
          obtain ⟨h1, h2⟩ := hms q i hq
          exact ⟨by rw [hlen2]; exact h1, by rw [hpath2]; exact h2⟩)
        hunder
        (by
          intro q' h1 h2
          exact hclosed q' h1 (h2.trans (List.dropLast_prefix dir)))
      refine ⟨by rw [ihlen, hlen2], ?_⟩
      intro j
      rw [ihchar j, hpath2 j]
      by_cases hj : j = did
      · subst hj
        have hnotpre : ¬ ((nodes.getD j default).path <+: dir.dropLast) := by
          rw [hdpath]
          intro h
          have hple := h.length_le
          rw [List.length_dropLast] at hple
          omega
        rw [if_neg (fun h => hnotpre h.2)]
        have hc1 : lookupPath m ((nodes.getD j default).path) = some j := by
          rw [hdpath]
          exact hdid
        have hc2 : (nodes.getD j default).path <+: dir := by
          rw [hdpath]
        rw [modify_getD_self _ _ _ hdlt, if_pos ⟨hc1, hc2⟩]
      · rw [modify_getD_ne _ _ _ _ (fun h => hj h.symm)]
        by_cases hlk : lookupPath m ((nodes.getD j default).path) = some j
        · have hpne : (nodes.getD j default).path ≠ dir := by
            intro h
            rw [h, hdid] at hlk
            exact hj (Option.some.inj hlk).symm
          by_cases hpre : (nodes.getD j default).path <+: dir
          · rw [if_pos ⟨hlk, (strict_prefix_iff_dropLast hdirne).mp ⟨hpre, hpne⟩⟩,
              if_pos ⟨hlk, hpre⟩]
          · rw [if_neg ?_, if_neg (fun h => hpre h.2)]
            rintro ⟨-, h2⟩
            exact hpre (h2.trans (List.dropLast_prefix dir))
        · rw [if_neg (fun h => hlk h.1), if_neg (fun h => hlk h.1)]


theorem ensure_hit (root : MPath) (fuel : Nat) (path : MPath) (st : BState) (i : Nat)
    (h : lookupPath st.idByPath path = some i) :
    ensure_dir root (fuel + 1) path st = (st, i) := by
  simp only [ensure_dir, h]

theorem ensure_miss_go (root : MPath) (fuel : Nat) (path : MPath) (st : BState)
    (hmiss : lookupPath st.idByPath path = none) (hne : path ≠ root) :
    ensure_dir root (fuel + 1) path st
      = insertDirNode path (some (ensure_dir root fuel ((parentPath path).getD root) st).2)
          (ensure_dir root fuel ((parentPath path).getD root) st).1 := by
  simp only [ensure_dir, hmiss, if_neg hne]

theorem ensure_miss_root (root : MPath) (fuel : Nat) (st : BState)
    (hmiss : lookupPath st.idByPath root = none) :
    ensure_dir root (fuel + 1) root st = insertDirNode root none st := by
  simp only [ensure_dir, hmiss, if_pos]

theorem insert_core (path : MPath) (parentId : Option Nat) (st1 : BState)
    (hp : ∀ x, parentId = some x → x < st1.nodes.length) :
    (insertDirNode path parentId st1).2 = st1.nodes.length ∧
    (insertDirNode path parentId st1).1.idByPath
      = (path, st1.nodes.length) :: st1.idByPath ∧
    (insertDirNode path parentId st1).1.nodes.length = st1.nodes.length + 1 ∧
    (∀ i, i < st1.nodes.length →
      coreEq ((insertDirNode path parentId st1).1.nodes.getD i default)
        (st1.nodes.getD i default)) ∧
    ((insertDirNode path parentId st1).1.nodes.getD st1.nodes.length default).path = path ∧
    ((insertDirNode path parentId st1).1.nodes.getD st1.nodes.length
        default).kind = NodeKind.Dir ∧
    ((insertDirNode path parentId st1).1.nodes.getD st1.nodes.length default).size = 0 ∧
    ((insertDirNode path parentId st1).1.nodes.getD st1.nodes.length
        default).file_count = 0 ∧
    ((insertDirNode path parentId st1).1.nodes.getD st1.nodes.length
        default).parent = parentId.map (⟨·⟩) := by
  match parentId with
  | none =>
    have hnode : (insertDirNode path none st1).1.nodes.getD st1.nodes.length default
        = { id := ⟨st1.nodes.length⟩, parent := none, path := path,
            name := ((fileName path).bind OsStr.toStr).getD ((pathToStr path).getD ""),
            kind := .Dir, size := 0, file_count := 0, children := [],
            modified := none } := by
      show (st1.nodes ++ [_]).getD st1.nodes.length default = _
      rw [getD_append_self]
      rfl
    refine ⟨rfl, rfl, by simp [insertDirNode], ?_, ?_, ?_, ?_, ?_, ?_⟩
    · intro i hi
      show coreEq ((st1.nodes ++ [_]).getD i default) _
      rw [getD_append_lt _ _ _ hi]
      exact ⟨rfl, rfl, rfl, rfl, rfl⟩
    all_goals rw [hnode]
    all_goals rfl
  | some pid =>
    have hpid : pid < st1.nodes.length := hp pid rfl
    have hpidne : pid ≠ st1.nodes.length := by omega
    have hnode : (insertDirNode path (some pid) st1).1.nodes.getD st1.nodes.length default
        = { id := ⟨st1.nodes.length⟩, parent := some ⟨pid⟩, path := path,
            name := ((fileName path).bind OsStr.toStr).getD ((pathToStr path).getD ""),
            kind := .Dir, size := 0, file_count := 0, children := [],
            modified := none } := by
      show (List.modify _ pid (st1.nodes ++ [_])).getD st1.nodes.length default = _
      rw [modify_getD_ne _ _ _ _ hpidne, getD_append_self]
      rfl
    refine ⟨rfl, rfl, by simp [insertDirNode], ?_, ?_, ?_, ?_, ?_, ?_⟩
    · intro i hi
      show coreEq ((List.modify _ pid (st1.nodes ++ [_])).getD i default) _
      by_cases hip : i = pid
      · subst hip
        rw [modify_getD_self _ _ _ (by simp; omega)]
        rw [getD_append_lt _ _ _ hi]
        exact ⟨rfl, rfl, rfl, rfl, rfl⟩
      · rw [modify_getD_ne _ _ _ _ (fun h => hip h.symm)]
        rw [getD_append_lt _ _ _ hi]
        exact ⟨rfl, rfl, rfl, rfl, rfl⟩
    all_goals rw [hnode]
    all_goals rfl


theorem addFileNode_core (path : MPath) (sz : Nat) (pid : Nat) (st1 : BState)
    (hpid : pid < st1.nodes.length) :
    (addFileNode path sz pid st1).length = st1.nodes.length + 1 ∧
    (∀ i, i < st1.nodes.length →
      coreEq ((addFileNode path sz pid st1).getD i default) (st1.nodes.getD i default)) ∧
    (addFileNode path sz pid st1).getD st1.nodes.length default
      = { id := ⟨st1.nodes.length⟩, parent := some ⟨pid⟩, path := path,
          name := ((fileName path).bind OsStr.toStr).getD "", kind := .File,
          size := sz, file_count := 1, children := [], modified := none } := by
  have hpidne : pid ≠ st1.nodes.length := by omega
  refine ⟨by simp [addFileNode], ?_, ?_⟩
  · intro i hi
    show coreEq ((List.modify _ pid (st1.nodes ++ [_])).getD i default) _
    by_cases hip : i = pid
    · subst hip
      rw [modify_getD_self _ _ _ (by simp; omega)]
      rw [getD_append_lt _ _ _ hi]
      exact ⟨rfl, rfl, rfl, rfl, rfl⟩
    · rw [modify_getD_ne _ _ _ _ (fun h => hip h.symm)]
      rw [getD_append_lt _ _ _ hi]
      exact ⟨rfl, rfl, rfl, rfl, rfl⟩
  · show (List.modify _ pid (st1.nodes ++ [_])).getD st1.nodes.length default = _
    rw [modify_getD_ne _ _ _ _ hpidne, getD_append_self]

theorem coreEq_trans {a b c : TreeNode} (h1 : coreEq a b) (h2 : coreEq b c) : coreEq a c := by
  obtain ⟨p1, k1, s1, f1, r1⟩ := h1
  obtain ⟨p2, k2, s2, f2, r2⟩ := h2
  exact ⟨p1.trans p2, k1.trans k2, s1.trans s2, f1.trans f2, r1.trans r2⟩


theorem ensure_spec (root : MPath) (hroot : root ≠ []) :
    ∀ (fuel : Nat) (q : MPath) (st : BState),
      Inv root st → root <+: q → q.length + 1 ≤ fuel →
      Inv root (ensure_dir root fuel q st).1 ∧
      lookupPath (ensure_dir root fuel q st).1.idByPath q
        = some (ensure_dir root fuel q st).2 ∧
      st.nodes.length ≤ (ensure_dir root fuel q st).1.nodes.length ∧
      (∀ i, i < st.nodes.length →
        coreEq ((ensure_dir root fuel q st).1.nodes.getD i default)
          (st.nodes.getD i default)) ∧
      (∀ q' i', lookupPath st.idByPath q' = some i' →
        lookupPath (ensure_dir root fuel q st).1.idByPath q' = some i') ∧
      (∀ q', root <+: q' → q' <+: q →
        ∃ i', lookupPath (ensure_dir root fuel q st).1.idByPath q' = some i') ∧
      (∀ i, st.nodes.length ≤ i → i < (ensure_dir root fuel q st).1.nodes.length →
        ((ensure_dir root fuel q st).1.nodes.getD i default).kind = NodeKind.Dir) ∧
      (∀ q' i', lookupPath (ensure_dir root fuel q st).1.idByPath q' = some i' →
        lookupPath st.idByPath q' = some i' ∨ (root <+: q' ∧ q' <+: q)) := by
  intro fuel
  induction fuel with
  | zero =>
    intro q st _ _ hfl
    omega
  | succ fuel ih =>
    intro q st hInv hq hfl
    rcases hlk : lookupPath st.idByPath q with - | i0
    case some =>
      rw [ensure_hit root fuel q st i0 hlk]
      refine ⟨hInv, hlk, le_refl _, fun i _ => ⟨rfl, rfl, rfl, rfl, rfl⟩,
        fun q' i' h => h, ?_, ?_, fun q' i' h => Or.inl h⟩
      · intro q' h1 h2
        exact hInv.mapClosed q i0 hlk q' h1 h2
      · intro i h1 h2
        have h2' : i < st.nodes.length := h2
        omega
    case none =>
      have hqr : q ≠ root := by
        intro h
        rw [h, hInv.rootMap] at hlk
        cases hlk
      obtain ⟨hpp, hpar_pre, hpar_ne⟩ := parentPath_of_strict hroot hq hqr
      have hqlen : 0 < q.length := by
        have h1 := hq.length_le
        have h2 : 0 < root.length := List.length_pos.mpr hroot
        omega
      have hqne : q ≠ [] := by
        intro h
        rw [h] at hqlen
        simp at hqlen
      have hpd : (parentPath q).getD root = q.dropLast := by
        rw [hpp]
        rfl
      have hfl2 : q.dropLast.length + 1 ≤ fuel := by
        rw [List.length_dropLast]
        omega
      obtain ⟨ih1, ih2, ih3, ih4, ih5, ih6, ih7, ih8⟩ := ih q.dropLast st hInv hpar_pre hfl2
      set E := ensure_dir root fuel q.dropLast st with hE
      have hnotdl : ¬ q <+: q.dropLast := by
        intro h
        have := h.length_le
        rw [List.length_dropLast] at this
        omega
      have hst1q : lookupPath E.1.idByPath q = none := by
        rcases hq1 : lookupPath E.1.idByPath q with - | i1
        · rfl
        · rcases ih8 q i1 hq1 with h | ⟨-, h2⟩
          · rw [hlk] at h
            cases h
          · exact absurd h2 hnotdl
      have hpidlt : E.2 < E.1.nodes.length := (ih1.mapSound _ _ ih2).1
      obtain ⟨ic1, ic2, ic3, ic4, ic5, ic6, ic7, ic8, ic9⟩ :=
        insert_core q (some E.2) E.1 (fun x hx => (Option.some.inj hx) ▸ hpidlt)
      rw [ensure_miss_go root fuel q st hlk hqr, hpd, ← hE]
      set I := insertDirNode q (some E.2) E.1 with hI
      have hLset : ∀ q', lookupPath I.1.idByPath q'
          = (if q = q' then some E.1.nodes.length else lookupPath E.1.idByPath q') := by
        intro q'
        rw [ic2, lookup_cons]
      have hpres1 : ∀ q' i', lookupPath E.1.idByPath q' = some i' →
          lookupPath I.1.idByPath q' = some i' := by
        intro q' i' h
        rw [hLset, if_neg ?_]
        · exact h
        · intro he
          rw [← he, hst1q] at h
          cases h
      have hpres : ∀ q' i', lookupPath st.idByPath q' = some i' →
          lookupPath I.1.idByPath q' = some i' :=
        fun q' i' h => hpres1 q' i' (ih5 q' i' h)
      have hclos : ∀ q', root <+: q' → q' <+: q →
          ∃ i', lookupPath I.1.idByPath q' = some i' := by
        intro q' h1 h2
        by_cases he : q' = q
        · subst he
          exact ⟨E.1.nodes.length, by rw [hLset, if_pos rfl]⟩
        · obtain ⟨i', hi'⟩ := ih6 q' h1 ((strict_prefix_iff_dropLast hqne).mp ⟨h2, he⟩)
          exact ⟨i', hpres1 q' i' hi'⟩
      have hback : ∀ q' i', lookupPath I.1.idByPath q' = some i' →
          lookupPath st.idByPath q' = some i' ∨ (root <+: q' ∧ q' <+: q) := by
        intro q' i' h
        rw [hLset] at h
        by_cases he : q = q'
        · exact Or.inr ⟨he ▸ hq, he ▸ List.prefix_refl q⟩
        · rw [if_neg he] at h
          rcases ih8 q' i' h with h1 | ⟨h1, h2⟩
          · exact Or.inl h1
          · exact Or.inr ⟨h1, h2.trans (List.dropLast_prefix q)⟩
      have hmono : st.nodes.length ≤ I.1.nodes.length := by
        rw [ic3]
        omega
      have hcore : ∀ i, i < st.nodes.length →
          coreEq (I.1.nodes.getD i default) (st.nodes.getD i default) := by
        intro i hi
        exact coreEq_trans (ic4 i (by omega)) (ih4 i hi)
      have hnewdir : ∀ i, st.nodes.length ≤ i → i < I.1.nodes.length →
          (I.1.nodes.getD i default).kind = NodeKind.Dir := by
        intro i h1 h2
        rw [ic3] at h2
        by_cases hiL : i = E.1.nodes.length
        · subst hiL
          exact ic6
        · have hi : i < E.1.nodes.length := by omega
          rw [(ic4 i hi).2.1]
          exact ih7 i h1 hi
      have hlenEI : E.1.nodes.length ≤ I.1.nodes.length := by
        rw [ic3]
        omega
      have hnewEI : ∀ i, E.1.nodes.length ≤ i → i < I.1.nodes.length →
          (I.1.nodes.getD i default).kind ≠ NodeKind.File := by
        intro i h1 h2
        rw [ic3] at h2
        have hieq : i = E.1.nodes.length := by omega
        subst hieq
        rw [ic6]
        decide
      have hfilter : (List.range E.1.nodes.length).filter (fun j =>
          decide ((E.1.nodes.getD j default).kind = NodeKind.File)
            && underB q (E.1.nodes.getD j default).path) = [] := by
        rw [List.filter_eq_nil_iff]
        intro j hj hpred
        have hjlt : j < E.1.nodes.length := List.mem_range.mp hj
        rw [Bool.and_eq_true, decide_eq_true_eq] at hpred
        obtain ⟨hkind, hund⟩ := hpred
        simp only [underB, decide_eq_true_eq] at hund
        obtain ⟨i', hi'⟩ := ih1.filesClosed j hjlt hkind q hq hund.1 hund.2
        rw [hst1q] at hi'
        cases hi'
      have hsum0 : sumFilesUnder E.1.nodes q = 0 := by
        unfold sumFilesUnder
        rw [hfilter]
        rfl
      have hcnt0 : countFilesUnder E.1.nodes q = 0 := by
        unfold countFilesUnder
        rw [hfilter]
        rfl
      have hInvI : Inv root I.1 := by
        have h0 : 0 < st.nodes.length := hInv.len0
        refine ⟨?_, ?_, ?_, ?_, ?_, ?_, ?_, ?_, ?_, ?_, ?_, ?_, ?_, ?_⟩
        · rw [ic3]
          omega
        · rw [(hcore 0 h0).1]
          exact hInv.node0_path
        · rw [(hcore 0 h0).2.2.2.2]
          exact hInv.node0_parent
        · rw [(hcore 0 h0).2.1]
          exact hInv.node0_kind
        · rw [hLset root, if_neg hqr]
          exact ih1.rootMap
        · intro q0 i h
          rw [hLset q0] at h
          by_cases he : q = q0
          · rw [if_pos he] at h
            obtain rfl := Option.some.inj h
            exact ⟨by rw [ic3]; omega, he ▸ ic5, ic6⟩
          · rw [if_neg he] at h
            obtain ⟨h1, h2, h3⟩ := ih1.mapSound q0 i h
            refine ⟨by rw [ic3]; omega, ?_, ?_⟩
            · rw [(ic4 i h1).1]
              exact h2
            · rw [(ic4 i h1).2.1]
              exact h3
        · intro i hilen hkind
          rw [ic3] at hilen
          by_cases hiL : i = E.1.nodes.length
          · subst hiL
            rw [ic5, hLset, if_pos rfl]
          · have hi : i < E.1.nodes.length := by omega
            rw [(ic4 i hi).1]
            have hk2 : (E.1.nodes.getD i default).kind = NodeKind.Dir := by
              rw [← (ic4 i hi).2.1]
              exact hkind
            exact hpres1 _ i (ih1.mapComplete i hi hk2)
        · intro i hilen
          rw [ic3] at hilen
          by_cases hiL : i = E.1.nodes.length
          · subst hiL
            rw [ic5]
            exact hq
          · have hi : i < E.1.nodes.length := by omega
            rw [(ic4 i hi).1]
            exact ih1.under i hi
        · intro i hilen hkind
          rw [ic3] at hilen
          by_cases hiL : i = E.1.nodes.length
          · subst hiL
            rw [ic6] at hkind
            cases hkind
          · have hi : i < E.1.nodes.length := by omega
            rw [(ic4 i hi).1]
            refine ih1.fileStrict i hi ?_
            rw [← (ic4 i hi).2.1]
            exact hkind
        · intro i hilen hine
          rw [ic3] at hilen
          by_cases hiL : i = E.1.nodes.length
          · subst hiL
            refine ⟨E.2, ?_, hpidlt, ?_⟩
            · rw [ic9]
              rfl
            · rw [ic5, hpd]
              exact hpres1 _ _ ih2
          · have hi : i < E.1.nodes.length := by omega
            obtain ⟨p, hp1, hp2, hp3⟩ := ih1.parentLink i hi hine
            refine ⟨p, ?_, hp2, ?_⟩
            · rw [(ic4 i hi).2.2.2.2]
              exact hp1
            · rw [(ic4 i hi).1]
              exact hpres1 _ _ hp3
        · intro q0 i h q' h1 h2
          rw [hLset q0] at h
          by_cases he : q = q0
          · exact hclos q' h1 (by rw [he]; exact h2)
          · rw [if_neg he] at h
            obtain ⟨i', hi'⟩ := ih1.mapClosed q0 i h q' h1 h2
            exact ⟨i', hpres1 _ _ hi'⟩
        · intro j hjlen hkind q' h1 h2 h3
          rw [ic3] at hjlen
          by_cases hjL : j = E.1.nodes.length
          · subst hjL
            rw [ic6] at hkind
            cases hkind
          · have hj : j < E.1.nodes.length := by omega
            have hk2 : (E.1.nodes.getD j default).kind = NodeKind.File := by
              rw [← (ic4 j hj).2.1]
              exact hkind
            rw [(ic4 j hj).1] at h2 h3
            obtain ⟨i', hi'⟩ := ih1.filesClosed j hj hk2 q' h1 h2 h3
            exact ⟨i', hpres1 _ _ hi'⟩
        · intro j hjlen hkind
          rw [ic3] at hjlen
          by_cases hjL : j = E.1.nodes.length
          · subst hjL
            rw [ic6] at hkind
            cases hkind
          · have hj : j < E.1.nodes.length := by omega
            rw [(ic4 j hj).2.2.1]
            refine ih1.fileSz j hj ?_
            rw [← (ic4 j hj).2.1]
            exact hkind
        · intro i hilen hkind
          rw [ic3] at hilen
          by_cases hiL : i = E.1.nodes.length
          · subst hiL
            obtain ⟨hS, hC, -⟩ := filesUnder_ext hlenEI ic4 hnewEI q
            constructor
            · rw [ic7, ic5, hS, hsum0]
            · rw [ic8, ic5, hC, hcnt0]
          · have hi : i < E.1.nodes.length := by omega
            obtain ⟨hS, hC, -⟩ := filesUnder_ext hlenEI ic4 hnewEI
              ((E.1.nodes.getD i default).path)
            have hk2 : (E.1.nodes.getD i default).kind = NodeKind.Dir := by
              rw [← (ic4 i hi).2.1]
              exact hkind
            obtain ⟨ha1, ha2⟩ := ih1.agg i hi hk2
            constructor
            · rw [(ic4 i hi).2.2.1, (ic4 i hi).1, hS, ha1]
            · rw [(ic4 i hi).2.2.2.1, (ic4 i hi).1, hC, ha2]
      exact ⟨hInvI, by rw [hLset, if_pos rfl, ic1], hmono, hcore, hpres, hclos,
        hnewdir, hback⟩


theorem filesUnder_congr {nodes nodes' : List TreeNode}
    (hlen : nodes'.length = nodes.length)
    (h : ∀ j, j < nodes.length →
      (nodes'.getD j default).kind = (nodes.getD j default).kind ∧
      (nodes'.getD j default).path = (nodes.getD j default).path ∧
      ((nodes.getD j default).kind = NodeKind.File →
        (nodes'.getD j default).size = (nodes.getD j default).size)) (q : MPath) :
    sumFilesUnder nodes' q = sumFilesUnder nodes q ∧
    countFilesUnder nodes' q = countFilesUnder nodes q ∧
    fileCnt nodes' = fileCnt nodes := by
  have hpredS : ∀ j ∈ List.range nodes.length,
      (decide ((nodes'.getD j default).kind = NodeKind.File)
        && underB q (nodes'.getD j default).path)
      = (decide ((nodes.getD j default).kind = NodeKind.File)
        && underB q (nodes.getD j default).path) := by
    intro j hj
    obtain ⟨hk, hp, -⟩ := h j (List.mem_range.mp hj)
    rw [hk, hp]
  have hpredC : ∀ j ∈ List.range nodes.length,
      (decide ((nodes'.getD j default).kind = NodeKind.File) : Bool)
      = (decide ((nodes.getD j default).kind = NodeKind.File) : Bool) := by
    intro j hj
    obtain ⟨hk, -, -⟩ := h j (List.mem_range.mp hj)
    rw [hk]
  refine ⟨?_, ?_, ?_⟩
  · unfold sumFilesUnder
    rw [hlen, List.filter_congr hpredS]
    apply congrArg
    apply List.map_congr_left
    intro j hj
    have hjlt : j < nodes.length := List.mem_range.mp (List.mem_of_mem_filter hj)
    obtain ⟨-, -, hs⟩ := h j hjlt
    have hfilt := List.of_mem_filter hj
    rw [Bool.and_eq_true, decide_eq_true_eq] at hfilt
    exact hs hfilt.1
  · unfold countFilesUnder
    rw [hlen, List.filter_congr hpredS]
  · unfold fileCnt
    rw [hlen, List.filter_congr hpredC]

theorem Inv_init (root : MPath) (hroot : root ≠ []) :
    Inv root (ensure_dir root (root.length + 2) root ⟨[], []⟩).1 ∧
    (ensure_dir root (root.length + 2) root ⟨[], []⟩).2 = 0 ∧
    fileCnt (ensure_dir root (root.length + 2) root ⟨[], []⟩).1.nodes = 0 := by
  have he : ensure_dir root (root.length + 2) root ⟨[], []⟩
      = insertDirNode root none ⟨[], []⟩ := by
    have e : root.length + 2 = root.length + 1 + 1 := rfl
    rw [e]
    exact ensure_miss_root root (root.length + 1) ⟨[], []⟩ rfl
  rw [he]
  have hmap : (insertDirNode root none ⟨[], []⟩).1.idByPath = [(root, 0)] := rfl
  refine ⟨⟨?_, ?_, ?_, ?_, ?_, ?_, ?_, ?_, ?_, ?_, ?_, ?_, ?_, ?_⟩, rfl, rfl⟩
  · show 0 < 1
    exact Nat.one_pos
  · rfl
  · rfl
  · rfl
  · rw [hmap, lookup_cons, if_pos rfl]
  · intro q i h
    rw [hmap, lookup_cons] at h
    by_cases hrq : root = q
    · rw [if_pos hrq] at h
      obtain rfl := Option.some.inj h
      exact ⟨Nat.one_pos, hrq, rfl⟩
    · rw [if_neg hrq] at h
      cases h
  · intro i hi _
    have hi0 : i = 0 := by
      have hi' : i < 1 := hi
      omega
    subst hi0
    have hp : ((insertDirNode root none (⟨[], []⟩ : BState)).1.nodes.getD 0 default).path
        = root := rfl
    rw [hmap, hp, lookup_cons, if_pos rfl]
  · intro i hi
    have hi' : i < 1 := hi
    have hi0 : i = 0 := by omega
    subst hi0
    exact List.prefix_refl root
  · intro i hi hk
    have hi' : i < 1 := hi
    have hi0 : i = 0 := by omega
    subst hi0
    cases hk
  · intro i hi hne
    have hi' : i < 1 := hi
    omega
  · intro q i h q' h1 h2
    rw [hmap, lookup_cons] at h
    by_cases hrq : root = q
    · subst hrq
      have : q' = root := (h1.eq_of_length_le h2.length_le).symm
      subst this
      exact ⟨0, by rw [hmap, lookup_cons, if_pos rfl]⟩
    · rw [if_neg hrq] at h
      cases h
  · intro j hj hk
    have hj' : j < 1 := hj
    have hj0 : j = 0 := by omega
    subst hj0
    cases hk
  · intro j hj hk
    have hj' : j < 1 := hj
    have hj0 : j = 0 := by omega
    subst hj0
    cases hk
  · intro i hi _
    have hi' : i < 1 := hi
    have hi0 : i = 0 := by omega
    subst hi0
    exact ⟨rfl, rfl⟩


theorem satAdd128_exact {a b : Nat} (h : a + b ≤ u128Max) : satAdd128 a b = a + b := by
  unfold satAdd128
  exact Nat.min_eq_left h

theorem satAdd64_exact {a b : Nat} (h : a + b ≤ u64Max) : satAdd64 a b = a + b := by
  unfold satAdd64
  exact Nat.min_eq_left h

theorem filter_and_length_le (p r : Nat → Bool) (l : List Nat) :
    (l.filter (fun j => p j && r j)).length ≤ (l.filter p).length := by
  induction l with
  | nil => simp
  | cons a t ih =>
    simp only [List.filter_cons]
    cases hp : p a <;> cases hr : r a <;> simp [hp, hr] <;> omega

theorem countFilesUnder_le_fileCnt (nodes : List TreeNode) (q : MPath) :
    countFilesUnder nodes q ≤ fileCnt nodes := by
  unfold countFilesUnder fileCnt
  exact filter_and_length_le _ _ _

theorem sumFilesUnder_le (nodes : List TreeNode)
    (hsz : ∀ j, j < nodes.length → (nodes.getD j default).kind = NodeKind.File →
      (nodes.getD j default).size ≤ 2 ^ 64 - 1) (q : MPath) :
    sumFilesUnder nodes q ≤ countFilesUnder nodes q * (2 ^ 64 - 1) := by
  unfold sumFilesUnder countFilesUnder
  have hb : ∀ x ∈ ((List.range nodes.length).filter (fun j =>
      decide ((nodes.getD j default).kind = NodeKind.File)
        && underB q (nodes.getD j default).path)).map
      (fun j => (nodes.getD j default).size), x ≤ 2 ^ 64 - 1 := by
    intro x hx
    obtain ⟨j, hj, rfl⟩ := List.mem_map.mp hx
    have hjr : j < nodes.length := List.mem_range.mp (List.mem_of_mem_filter hj)
    have hf := List.of_mem_filter hj
    rw [Bool.and_eq_true, decide_eq_true_eq] at hf
    exact hsz j hjr hf.1
  have hle := List.sum_le_card_nsmul _ _ hb
  rw [List.length_map] at hle
  simpa [smul_eq_mul] using hle


theorem addFile_spec (root : MPath) (hroot : root ≠ []) (st : BState) (path : MPath) (sz : Nat)
    (hInv : Inv root st)
    (hpre : root <+: path) (hne : path ≠ root) (hsz : sz < 2 ^ 64)
    (hcnt : fileCnt st.nodes + 1 ≤ u64Max) :
    Inv root (addFile root st (path, sz)) ∧
    fileCnt (addFile root st (path, sz)).nodes = fileCnt st.nodes + 1 := by
  obtain ⟨hpp, hDpre, hDne⟩ := parentPath_of_strict hroot hpre hne
  have hgd : (parentPath path).getD root = path.dropLast := by
    rw [hpp]
    rfl
  have hplen : 0 < path.length := by
    have h1 := hpre.length_le
    have h2 : 0 < root.length := List.length_pos.mpr hroot
    omega
  have hpne : path ≠ [] := by
    intro h
    rw [h] at hplen
    simp at hplen
  have ha : addFile root st (path, sz)
      = ⟨propagate root (ensure_dir root (((parentPath path).getD root).length + 2)
            ((parentPath path).getD root) st).1.idByPath sz
          (((parentPath path).getD root).length + 1) ((parentPath path).getD root)
          (addFileNode path sz
            (ensure_dir root (((parentPath path).getD root).length + 2)
              ((parentPath path).getD root) st).2
            (ensure_dir root (((parentPath path).getD root).length + 2)
              ((parentPath path).getD root) st).1),
        (ensure_dir root (((parentPath path).getD root).length + 2)
          ((parentPath path).getD root) st).1.idByPath⟩ := rfl
  rw [ha, hgd]
  obtain ⟨es1, es2, es3, es4, es5, es6, es7, es8⟩ :=
    ensure_spec root hroot (path.dropLast.length + 2) path.dropLast st hInv hDpre (by omega)
  set E := ensure_dir root (path.dropLast.length + 2) path.dropLast st with hE
  have hpidlt : E.2 < E.1.nodes.length := (es1.mapSound _ _ es2).1
  obtain ⟨afn1, afn2, afn3⟩ := addFileNode_core path sz E.2 E.1 hpidlt
  set N := addFileNode path sz E.2 E.1 with hN
  obtain ⟨pc1, pc2⟩ := propagate_char root hroot E.1.idByPath sz (path.dropLast.length + 1)
    path.dropLast N hDpre (le_refl _)
    (by
      intro q i h
      obtain ⟨h1, h2, -⟩ := es1.mapSound q i h
      refine ⟨by rw [afn1]; omega, ?_⟩
      rw [(afn2 i h1).1]
      exact h2)
    (by
      intro q i h
      obtain ⟨h1, h2, -⟩ := es1.mapSound q i h
      rw [← h2]
      exact es1.under i h1)
    es6
  set P := propagate root E.1.idByPath sz (path.dropLast.length + 1) path.dropLast N with hP
  have hL1cond : ¬(lookupPath E.1.idByPath ((N.getD E.1.nodes.length default).path)
      = some E.1.nodes.length ∧
      (N.getD E.1.nodes.length default).path <+: path.dropLast) := by
    rintro ⟨hl, -⟩
    have := (es1.mapSound _ _ hl).1
    omega
  have hL1 : P.getD E.1.nodes.length default = N.getD E.1.nodes.length default := by
    rw [pc2, if_neg hL1cond]
  have hPL : P.length = E.1.nodes.length + 1 := by
    rw [pc1, afn1]
  set fnode := N.getD E.1.nodes.length default with hfnode
  have hDirHit : ∀ j, j < E.1.nodes.length →
      (E.1.nodes.getD j default).kind = NodeKind.Dir →
      (E.1.nodes.getD j default).path <+: path.dropLast →
      P.getD j default = { N.getD j default with
        size := satAdd128 (N.getD j default).size sz,
        file_count := satAdd64 (N.getD j default).file_count 1 } := by
    intro j hj hk hp
    have hcond : lookupPath E.1.idByPath ((N.getD j default).path) = some j ∧
        (N.getD j default).path <+: path.dropLast := by
      rw [(afn2 j hj).1]
      exact ⟨es1.mapComplete j hj hk, hp⟩
    rw [pc2, if_pos hcond]
  have hMiss : ∀ j, j < E.1.nodes.length →
      ¬((E.1.nodes.getD j default).kind = NodeKind.Dir ∧
        (E.1.nodes.getD j default).path <+: path.dropLast) →
      P.getD j default = N.getD j default := by
    intro j hj hnc
    have hncond : ¬(lookupPath E.1.idByPath ((N.getD j default).path) = some j ∧
        (N.getD j default).path <+: path.dropLast) := by
      rintro ⟨hl, hp⟩
      rw [(afn2 j hj).1] at hl hp
      exact hnc ⟨(es1.mapSound _ _ hl).2.2, hp⟩
    rw [pc2, if_neg hncond]
  have hcorePN : ∀ j, j < E.1.nodes.length →
      (P.getD j default).path = (E.1.nodes.getD j default).path ∧
      (P.getD j default).kind = (E.1.nodes.getD j default).kind ∧
      (P.getD j default).parent = (E.1.nodes.getD j default).parent := by
    intro j hj
    by_cases hc : (E.1.nodes.getD j default).kind = NodeKind.Dir ∧
        (E.1.nodes.getD j default).path <+: path.dropLast
    · rw [hDirHit j hj hc.1 hc.2]
      exact ⟨(afn2 j hj).1, (afn2 j hj).2.1, (afn2 j hj).2.2.2.2⟩
    · rw [hMiss j hj hc]
      exact ⟨(afn2 j hj).1, (afn2 j hj).2.1, (afn2 j hj).2.2.2.2⟩
  have hcong : ∀ j, j < N.length →
      (P.getD j default).kind = (N.getD j default).kind ∧
      (P.getD j default).path = (N.getD j default).path ∧
      ((N.getD j default).kind = NodeKind.File →
        (P.getD j default).size = (N.getD j default).size) := by
    intro j hj
    rw [afn1] at hj
    by_cases hjL : j = E.1.nodes.length
    · subst hjL
      rw [hL1, hfnode]
      exact ⟨rfl, rfl, fun _ => rfl⟩
    · have hj2 : j < E.1.nodes.length := by omega
      by_cases hc : (E.1.nodes.getD j default).kind = NodeKind.Dir ∧
          (E.1.nodes.getD j default).path <+: path.dropLast
      · rw [hDirHit j hj2 hc.1 hc.2]
        refine ⟨rfl, rfl, ?_⟩
        intro hF
        rw [(afn2 j hj2).2.1, hc.1] at hF
        cases hF
      · rw [hMiss j hj2 hc]
        exact ⟨rfl, rfl, fun _ => rfl⟩
  have hfk : fnode.kind = NodeKind.File := by
    rw [afn3]
  have hfp : fnode.path = path := by
    rw [afn3]
  have hfs : fnode.size = sz := by
    rw [afn3]
  have hlenEF : (E.1.nodes ++ [fnode]).length ≤ N.length := by
    rw [afn1]
    simp
  have hcoreEF : ∀ i, i < (E.1.nodes ++ [fnode]).length →
      coreEq (N.getD i default) ((E.1.nodes ++ [fnode]).getD i default) := by
    intro i hi
    rw [List.length_append, List.length_singleton] at hi
    by_cases hiL : i = E.1.nodes.length
    · subst hiL
      rw [getD_append_self, ← hfnode]
      exact ⟨rfl, rfl, rfl, rfl, rfl⟩
    · have hi2 : i < E.1.nodes.length := by omega
      rw [getD_append_lt _ _ _ hi2]
      exact afn2 i hi2
  have hnewEF : ∀ i, (E.1.nodes ++ [fnode]).length ≤ i → i < N.length →
      (N.getD i default).kind ≠ NodeKind.File := by
    intro i h1 h2
    rw [List.length_append, List.length_singleton] at h1
    rw [afn1] at h2
    omega
  have hchain : ∀ q0,
      sumFilesUnder P q0 = sumFilesUnder E.1.nodes q0 + (if underB q0 path then sz else 0) ∧
      countFilesUnder P q0
        = countFilesUnder E.1.nodes q0 + (if underB q0 path then 1 else 0) ∧
      fileCnt P = fileCnt E.1.nodes + 1 := by
    intro q0
    obtain ⟨c1, c2, c3⟩ := filesUnder_congr pc1 hcong q0
    obtain ⟨e1, e2, e3⟩ := filesUnder_ext hlenEF hcoreEF hnewEF q0
    obtain ⟨s1, s2, s3⟩ := filesUnder_snoc_file hfk q0
    refine ⟨?_, ?_, ?_⟩
    · rw [c1, e1, s1, hfp, hfs]
    · rw [c2, e2, s2, hfp]
    · rw [c3, e3, s3]
  have hfcE : fileCnt E.1.nodes = fileCnt st.nodes := by
    obtain ⟨-, -, h⟩ := filesUnder_ext es3 es4 (fun i h1 h2 => by
      rw [es7 i h1 h2]
      decide) root
    exact h
  have hszE : ∀ j, j < E.1.nodes.length →
      (E.1.nodes.getD j default).kind = NodeKind.File →
      (E.1.nodes.getD j default).size ≤ 2 ^ 64 - 1 := by
    intro j hj hk
    have := es1.fileSz j hj hk
    omega
  have hsat : ∀ j, j < E.1.nodes.length →
      (E.1.nodes.getD j default).kind = NodeKind.Dir →
      satAdd128 (E.1.nodes.getD j default).size sz
        = (E.1.nodes.getD j default).size + sz ∧
      satAdd64 (E.1.nodes.getD j default).file_count 1
        = (E.1.nodes.getD j default).file_count + 1 := by
    intro j hj hk
    obtain ⟨ha1, ha2⟩ := es1.agg j hj hk
    have hc1 : countFilesUnder E.1.nodes (E.1.nodes.getD j default).path
        ≤ fileCnt E.1.nodes := countFilesUnder_le_fileCnt _ _
    have hc2 : fileCnt E.1.nodes + 1 ≤ u64Max := by
      rw [hfcE]
      exact hcnt
    have hs1 : sumFilesUnder E.1.nodes (E.1.nodes.getD j default).path
        ≤ countFilesUnder E.1.nodes (E.1.nodes.getD j default).path * (2 ^ 64 - 1) :=
      sumFilesUnder_le E.1.nodes hszE _
    constructor
    · apply satAdd128_exact
      rw [ha1]
      have hA : sumFilesUnder E.1.nodes (E.1.nodes.getD j default).path
          ≤ (u64Max - 1) * (2 ^ 64 - 1) :=
        le_trans hs1 (Nat.mul_le_mul_right _ (by omega))
      have hB : sz ≤ 2 ^ 64 - 1 := by omega
      have hC : (u64Max - 1) * (2 ^ 64 - 1) + (2 ^ 64 - 1) ≤ u128Max := by
        unfold u64Max u128Max
        norm_num
      omega
    · apply satAdd64_exact
      rw [ha2]
      omega
  have hUnderTrue : ∀ q0, q0 <+: path.dropLast → underB q0 path = true := by
    intro q0 h
    have h1 : q0 <+: path := h.trans (List.dropLast_prefix path)
    have h2 : q0 ≠ path := by
      intro he
      subst he
      have := h.length_le
      rw [List.length_dropLast] at this
      omega
    simp only [underB, decide_eq_true_eq]
    exact ⟨h1, h2⟩
  have hUnderFalse : ∀ q0, ¬ q0 <+: path.dropLast → underB q0 path = false := by
    intro q0 h
    simp only [underB, decide_eq_false_iff_not]
    rintro ⟨h1, h2⟩
    exact h ((strict_prefix_iff_dropLast hpne).mp ⟨h1, h2⟩)
  have hInvP : Inv root (⟨P, E.1.idByPath⟩ : BState) := by
    refine ⟨?_, ?_, ?_, ?_, ?_, ?_, ?_, ?_, ?_, ?_, ?_, ?_, ?_, ?_⟩
    · show 0 < P.length
      rw [hPL]
      omega
    · show (P.getD 0 default).path = root
      rw [(hcorePN 0 es1.len0).1]
      exact es1.node0_path
    · show (P.getD 0 default).parent = none
      rw [(hcorePN 0 es1.len0).2.2]
      exact es1.node0_parent
    · show (P.getD 0 default).kind = NodeKind.Dir
      rw [(hcorePN 0 es1.len0).2.1]
      exact es1.node0_kind
    · show lookupPath E.1.idByPath root = some 0
      exact es1.rootMap
    · intro q i h
      obtain ⟨h1, h2, h3⟩ := es1.mapSound q i h
      refine ⟨?_, ?_, ?_⟩
      · show i < P.length
        rw [hPL]
        omega
      · show (P.getD i default).path = q
        rw [(hcorePN i h1).1]
        exact h2
      · show (P.getD i default).kind = NodeKind.Dir
        rw [(hcorePN i h1).2.1]
        exact h3
    · intro i hi hk
      have hip : i < P.length := hi
      have hi' : i < E.1.nodes.length + 1 := by
        rw [hPL] at hip
        omega
      by_cases hiL : i = E.1.nodes.length
      · subst hiL
        have hk' : (P.getD E.1.nodes.length default).kind = NodeKind.Dir := hk
        rw [hL1, afn3] at hk'
        cases hk'
      · have hi2 : i < E.1.nodes.length := by omega
        have hk2 : (E.1.nodes.getD i default).kind = NodeKind.Dir := by
          rw [← (hcorePN i hi2).2.1]
          exact hk
        show lookupPath E.1.idByPath ((P.getD i default).path) = some i
        rw [(hcorePN i hi2).1]
        exact es1.mapComplete i hi2 hk2
    · intro i hi
      have hip : i < P.length := hi
      have hi' : i < E.1.nodes.length + 1 := by
        rw [hPL] at hip
        omega
      by_cases hiL : i = E.1.nodes.length
      · subst hiL
        show root <+: (P.getD E.1.nodes.length default).path
        rw [hL1, afn3]
        exact hpre
      · have hi2 : i < E.1.nodes.length := by omega
        show root <+: (P.getD i default).path
        rw [(hcorePN i hi2).1]
        exact es1.under i hi2
    · intro i hi hk
      have hip : i < P.length := hi
      have hi' : i < E.1.nodes.length + 1 := by
        rw [hPL] at hip
        omega
      by_cases hiL : i = E.1.nodes.length
      · subst hiL
        show (P.getD E.1.nodes.length default).path ≠ root
        rw [hL1, afn3]
        exact hne
      · have hi2 : i < E.1.nodes.length := by omega
        have hk2 : (E.1.nodes.getD i default).kind = NodeKind.File := by
          rw [← (hcorePN i hi2).2.1]
          exact hk
        show (P.getD i default).path ≠ root
        rw [(hcorePN i hi2).1]
        exact es1.fileStrict i hi2 hk2
    · intro i hi hine
      have hip : i < P.length := hi
      have hi' : i < E.1.nodes.length + 1 := by
        rw [hPL] at hip
        omega
      by_cases hiL : i = E.1.nodes.length
      · subst hiL
        refine ⟨E.2, ?_, hpidlt, ?_⟩
        · show (P.getD E.1.nodes.length default).parent = some ⟨E.2⟩
          rw [hL1, afn3]
        · show lookupPath E.1.idByPath
            ((parentPath (P.getD E.1.nodes.length default).path).getD root) = some E.2
          rw [hL1, afn3]
          show lookupPath E.1.idByPath ((parentPath path).getD root) = some E.2
          rw [hgd]
          exact es2
      · have hi2 : i < E.1.nodes.length := by omega
        obtain ⟨p, hp1, hp2, hp3⟩ := es1.parentLink i hi2 hine
        refine ⟨p, ?_, hp2, ?_⟩
        · show (P.getD i default).parent = some ⟨p⟩
          rw [(hcorePN i hi2).2.2]
          exact hp1
        · show lookupPath E.1.idByPath
            ((parentPath (P.getD i default).path).getD root) = some p
          rw [(hcorePN i hi2).1]
          exact hp3
    · intro q i h q' h1 h2
      exact es1.mapClosed q i h q' h1 h2
    · intro j hj hk q' h1 h2 h3
      have hjp : j < P.length := hj
      have hj' : j < E.1.nodes.length + 1 := by
        rw [hPL] at hjp
        omega
      by_cases hjL : j = E.1.nodes.length
      · subst hjL
        have h2' : q' <+: path := by
          have h2'' : q' <+: (P.getD E.1.nodes.length default).path := h2
          rw [hL1, afn3] at h2''
          exact h2''
        have h3' : q' ≠ path := by
          have h3'' : q' ≠ (P.getD E.1.nodes.length default).path := h3
          rw [hL1, afn3] at h3''
          exact h3''
        exact es6 q' h1 ((strict_prefix_iff_dropLast hpne).mp ⟨h2', h3'⟩)
      · have hj2 : j < E.1.nodes.length := by omega
        have hk2 : (E.1.nodes.getD j default).kind = NodeKind.File := by
          rw [← (hcorePN j hj2).2.1]
          exact hk
        have h2' : q' <+: (E.1.nodes.getD j default).path := by
          have h2'' : q' <+: (P.getD j default).path := h2
          rw [(hcorePN j hj2).1] at h2''
          exact h2''
        have h3' : q' ≠ (E.1.nodes.getD j default).path := by
          have h3'' : q' ≠ (P.getD j default).path := h3
          rw [(hcorePN j hj2).1] at h3''
          exact h3''
        exact es1.filesClosed j hj2 hk2 q' h1 h2' h3'
    · intro j hj hk
      have hjp : j < P.length := hj
      have hj' : j < E.1.nodes.length + 1 := by
        rw [hPL] at hjp
        omega
      by_cases hjL : j = E.1.nodes.length
      · subst hjL
        have hk' : (P.getD E.1.nodes.length default).size = sz := by
          rw [hL1, afn3]
        show (P.getD E.1.nodes.length default).size < 2 ^ 64
        rw [hk']
        exact hsz
      · have hj2 : j < E.1.nodes.length := by omega
        have hkE : (E.1.nodes.getD j default).kind = NodeKind.File := by
          rw [← (hcorePN j hj2).2.1]
          exact hk
        have hnb : P.getD j default = N.getD j default := by
          refine hMiss j hj2 ?_
          rintro ⟨hd, -⟩
          rw [hkE] at hd
          cases hd
        show (P.getD j default).size < 2 ^ 64
        rw [hnb, (afn2 j hj2).2.2.1]
        exact es1.fileSz j hj2 hkE
    · intro i hi hk
      have hip : i < P.length := hi
      have hi' : i < E.1.nodes.length + 1 := by
        rw [hPL] at hip
        omega
      by_cases hiL : i = E.1.nodes.length
      · subst hiL
        have hk' : (P.getD E.1.nodes.length default).kind = NodeKind.Dir := hk
        rw [hL1, afn3] at hk'
        cases hk'
      · have hi2 : i < E.1.nodes.length := by omega
        have hkE : (E.1.nodes.getD i default).kind = NodeKind.Dir := by
          rw [← (hcorePN i hi2).2.1]
          exact hk
        obtain ⟨ha1, ha2⟩ := es1.agg i hi2 hkE
        obtain ⟨hs1, hs2, -⟩ := hchain (E.1.nodes.getD i default).path
        by_cases hc : (E.1.nodes.getD i default).path <+: path.dropLast
        · obtain ⟨hx1, hx2⟩ := hsat i hi2 hkE
          have hPi := hDirHit i hi2 hkE hc
          have hiteS : (if underB (E.1.nodes.getD i default).path path
              then sz else 0) = sz := by
            rw [hUnderTrue _ hc]
            rfl
          have hiteC : (if underB (E.1.nodes.getD i default).path path
              then 1 else 0) = 1 := by
            rw [hUnderTrue _ hc]
            rfl
          constructor
          · show (P.getD i default).size = sumFilesUnder P ((P.getD i default).path)
            rw [(hcorePN i hi2).1, hs1, hiteS, hPi]
            show satAdd128 (N.getD i default).size sz
              = sumFilesUnder E.1.nodes (E.1.nodes.getD i default).path + sz
            rw [(afn2 i hi2).2.2.1, hx1, ha1]
          · show (P.getD i default).file_count
              = countFilesUnder P ((P.getD i default).path)
            rw [(hcorePN i hi2).1, hs2, hiteC, hPi]
            show satAdd64 (N.getD i default).file_count 1
              = countFilesUnder E.1.nodes (E.1.nodes.getD i default).path + 1
            rw [(afn2 i hi2).2.2.2.1, hx2, ha2]
        · have hPi : P.getD i default = N.getD i default := by
            refine hMiss i hi2 ?_
            rintro ⟨-, hp⟩
            exact hc hp
          have hiteS : (if underB (E.1.nodes.getD i default).path path
              then sz else 0) = 0 := by
            rw [hUnderFalse _ hc]
            rfl
          have hiteC : (if underB (E.1.nodes.getD i default).path path
              then 1 else 0) = 0 := by
            rw [hUnderFalse _ hc]
            rfl
          constructor
          · show (P.getD i default).size = sumFilesUnder P ((P.getD i default).path)
            rw [(hcorePN i hi2).1, hs1, hiteS, Nat.add_zero, hPi,
              (afn2 i hi2).2.2.1, ha1]
          · show (P.getD i default).file_count
              = countFilesUnder P ((P.getD i default).path)
            rw [(hcorePN i hi2).1, hs2, hiteC, Nat.add_zero, hPi,
              (afn2 i hi2).2.2.2.1, ha2]
  refine ⟨hInvP, ?_⟩
  show fileCnt P = fileCnt st.nodes + 1
  obtain ⟨-, -, h3⟩ := hchain root
  rw [h3, hfcE]


theorem build_foldl (root : MPath) (hroot : root ≠ []) :
    ∀ (fs : List (MPath × Nat)) (st : BState),
      Inv root st → fileCnt st.nodes + fs.length ≤ u64Max →
      (∀ pf ∈ fs, root <+: pf.1 ∧ pf.1 ≠ root ∧ pf.2 < 2 ^ 64) →
      Inv root (fs.foldl (addFile root) st) := by
  intro fs
  induction fs with
  | nil =>
    intro st h1 _ _
    exact h1
  | cons pf t ih =>
    intro st hInv hlen hall
    rw [List.foldl_cons]
    obtain ⟨hp1, hp2, hp3⟩ := hall pf (List.mem_cons_self pf t)
    have hlc : (pf :: t).length = t.length + 1 := rfl
    obtain ⟨hI, hC⟩ := addFile_spec root hroot st pf.1 pf.2 hInv hp1 hp2 hp3 (by omega)
    have hI' : Inv root (addFile root st pf) := hI
    have hC' : fileCnt (addFile root st pf).nodes = fileCnt st.nodes + 1 := hC
    exact ih (addFile root st pf) hI' (by omega)
      (fun q hq => hall q (List.mem_cons_of_mem pf hq))

theorem anc_step (t : Tree) (fuel i : Nat) :
    ancestorsUpTo t (fuel + 1) i
      = (match (t.nodes.getD i default).parent with
        | none => []
        | some a => a.val :: ancestorsUpTo t fuel a.val) := rfl

theorem anc_sound (root : MPath) (hroot : root ≠ []) (st : BState) (hInv : Inv root st)
    (t : Tree) (ht : t.nodes = st.nodes) :
    ∀ (fuel i d : Nat), i < st.nodes.length →
      d ∈ ancestorsUpTo t fuel i →
      d < st.nodes.length ∧ (st.nodes.getD d default).kind = NodeKind.Dir ∧
      lookupPath st.idByPath ((st.nodes.getD d default).path) = some d ∧
      (st.nodes.getD d default).path <+: (st.nodes.getD i default).path ∧
      (st.nodes.getD d default).path.length < (st.nodes.getD i default).path.length := by
  intro fuel
  induction fuel with
  | zero =>
    intro i d hi hd
    have hd' : d ∈ ([] : List Nat) := hd
    cases hd'
  | succ fuel ih =>
    intro i d hi hd
    have hstep : ancestorsUpTo t (fuel + 1) i
        = (match (st.nodes.getD i default).parent with
          | none => []
          | some a => a.val :: ancestorsUpTo t fuel a.val) := by
      rw [anc_step, ht]
    by_cases hi0 : i = 0
    · subst hi0
      rw [hstep, hInv.node0_parent] at hd
      cases hd
    · obtain ⟨p, hp1, hp2, hp3⟩ := hInv.parentLink i hi hi0
      have hri : root <+: (st.nodes.getD i default).path := hInv.under i hi
      have hpir : (st.nodes.getD i default).path ≠ root := by
        cases hk : (st.nodes.getD i default).kind with
        | Dir =>
          intro heq
          have hmc := hInv.mapComplete i hi hk
          rw [heq, hInv.rootMap] at hmc
          exact hi0 (Option.some.inj hmc).symm
        | File => exact hInv.fileStrict i hi hk
      obtain ⟨hppi, hpredl, hnedl⟩ := parentPath_of_strict hroot hri hpir
      have hgdi : (parentPath (st.nodes.getD i default).path).getD root
          = (st.nodes.getD i default).path.dropLast := by
        rw [hppi]
        rfl
      rw [hgdi] at hp3
      obtain ⟨hplt, hppath, hpkind⟩ := hInv.mapSound _ _ hp3
      rw [hstep, hp1] at hd
      have hd' : d ∈ p :: ancestorsUpTo t fuel p := hd
      have hlen_i : 0 < (st.nodes.getD i default).path.length := by
        have h2 : 0 < root.length := List.length_pos.mpr hroot
        have := hri.length_le
        omega
      rcases List.mem_cons.mp hd' with rfl | hmem
      · refine ⟨hplt, hpkind, ?_, ?_, ?_⟩
        · rw [hppath]
          exact hp3
        · rw [hppath]
          exact List.dropLast_prefix _
        · rw [hppath, List.length_dropLast]
          omega
      · obtain ⟨c1, c2, c3, c4, c5⟩ := ih p d hplt hmem
        refine ⟨c1, c2, c3, ?_, ?_⟩
        · refine c4.trans ?_
          rw [hppath]
          exact List.dropLast_prefix _
        · rw [hppath, List.length_dropLast] at c5
          omega

theorem anc_complete (root : MPath) (hroot : root ≠ []) (st : BState) (hInv : Inv root st)
    (t : Tree) (ht : t.nodes = st.nodes) :
    ∀ (fuel i : Nat), i < st.nodes.length → i + 1 ≤ fuel →
      ∀ q' d, root <+: q' → q' <+: (st.nodes.getD i default).path →
        q' ≠ (st.nodes.getD i default).path →
        lookupPath st.idByPath q' = some d →
        d ∈ ancestorsUpTo t fuel i := by
  intro fuel
  induction fuel with
  | zero =>
    intro i hi hf
    omega
  | succ fuel ih =>
    intro i hi hf q' d h1 h2 h3 h4
    have hri : root <+: (st.nodes.getD i default).path := hInv.under i hi
    have hlenq : q'.length < (st.nodes.getD i default).path.length := by
      have hle := h2.length_le
      rcases Nat.lt_or_ge q'.length (st.nodes.getD i default).path.length with h | h
      · exact h
      · exact absurd (h2.eq_of_length_le h) h3
    have hpir : (st.nodes.getD i default).path ≠ root := by
      intro he
      have hx := h1.length_le
      rw [he] at hlenq
      omega
    have hi0 : i ≠ 0 := by
      intro he0
      subst he0
      exact hpir hInv.node0_path
    obtain ⟨p, hp1, hp2, hp3⟩ := hInv.parentLink i hi hi0
    obtain ⟨hppi, hpredl, hnedl⟩ := parentPath_of_strict hroot hri hpir
    have hgdi : (parentPath (st.nodes.getD i default).path).getD root
        = (st.nodes.getD i default).path.dropLast := by
      rw [hppi]
      rfl
    rw [hgdi] at hp3
    obtain ⟨hplt, hppath, hpkind⟩ := hInv.mapSound _ _ hp3
    have hstep : ancestorsUpTo t (fuel + 1) i
        = (match (st.nodes.getD i default).parent with
          | none => []
          | some a => a.val :: ancestorsUpTo t fuel a.val) := by
      rw [anc_step, ht]
    rw [hstep, hp1]
    show d ∈ p :: ancestorsUpTo t fuel p
    have hipne : (st.nodes.getD i default).path ≠ [] := by
      intro hnil
      rw [hnil] at hlenq
      simp at hlenq
    have hq'dl : q' <+: (st.nodes.getD i default).path.dropLast :=
      (strict_prefix_iff_dropLast hipne).mp ⟨h2, h3⟩
    by_cases heq : q' = (st.nodes.getD i default).path.dropLast
    · rw [heq, hp3] at h4
      obtain rfl := Option.some.inj h4
      exact List.mem_cons_self _ _
    · refine List.mem_cons_of_mem _ ?_
      refine ih p hplt (by omega) q' d h1 ?_ ?_ h4
      · rw [hppath]
        exact hq'dl
      · rw [hppath]
        exact heq


theorem desc_eq_filesUnder (root : MPath) (hroot : root ≠ []) (st : BState)
    (hInv : Inv root st) (t : Tree) (ht : t.nodes = st.nodes) (i : Nat)
    (hi : i < st.nodes.length)
    (hk : (st.nodes.getD i default).kind = NodeKind.Dir) :
    descFileSizes t i = sumFilesUnder st.nodes ((st.nodes.getD i default).path) ∧
    descFileCount t i = countFilesUnder st.nodes ((st.nodes.getD i default).path) := by
  have hcm : ∀ (l : List Nat) (a : Nat), l.contains a = true ↔ a ∈ l :=
    fun l a => List.elem_iff
  have hfeq : (List.range st.nodes.length).filter (fun j =>
      decide ((st.nodes.getD j default).kind = NodeKind.File)
        && (ancestorsUpTo t st.nodes.length j).contains i)
      = (List.range st.nodes.length).filter (fun j =>
      decide ((st.nodes.getD j default).kind = NodeKind.File)
        && underB (st.nodes.getD i default).path (st.nodes.getD j default).path) := by
    apply List.filter_congr
    intro j hj
    have hjlt : j < st.nodes.length := List.mem_range.mp hj
    have hiff : (ancestorsUpTo t st.nodes.length j).contains i = true ↔
        underB (st.nodes.getD i default).path (st.nodes.getD j default).path = true := by
      constructor
      · intro hc
        have hmem : i ∈ ancestorsUpTo t st.nodes.length j := (hcm _ _).mp hc
        obtain ⟨-, -, -, c4, c5⟩ :=
          anc_sound root hroot st hInv t ht st.nodes.length j i hjlt hmem
        simp only [underB, decide_eq_true_eq]
        refine ⟨c4, ?_⟩
        intro he
        rw [he] at c5
        omega
      · intro hu
        simp only [underB, decide_eq_true_eq] at hu
        have hmem := anc_complete root hroot st hInv t ht st.nodes.length j hjlt
          (by omega) (st.nodes.getD i default).path i (hInv.under i hi) hu.1 hu.2
          (hInv.mapComplete i hi hk)
        exact (hcm _ _).mpr hmem
    rw [Bool.eq_iff_iff.mpr hiff]
  constructor
  · show descFileSizes t i = _
    unfold descFileSizes descFileIdx sumFilesUnder
    rw [ht, hfeq]
  · show descFileCount t i = _
    unfold descFileCount descFileIdx countFilesUnder
    rw [ht, hfeq]


/-- C1 (amended). For a nonempty root and a file list whose every entry
has a path strictly under the root, a size below `2^64`, and at most
`u64Max` entries (so neither saturating counter can saturate), every
`Dir` node of the tree built by `build_tree` carries exactly the total
size and the number of the `File` nodes in its descendant subtree (read
through the `parent` links). -/
theorem C1_dir_aggregation (root : MPath) (files : List (MPath × Nat))
    (hroot : root ≠ [])
    (hfiles : ∀ pf ∈ files, root <+: pf.1 ∧ pf.1 ≠ root ∧ pf.2 < 2 ^ 64)
    (hcount : files.length ≤ u64Max) :
    ∀ i, i < (build_tree root files).nodes.length →
      ((build_tree root files).nodes.getD i default).kind = NodeKind.Dir →
      ((build_tree root files).nodes.getD i default).size
        = descFileSizes (build_tree root files) i ∧
      ((build_tree root files).nodes.getD i default).file_count
        = descFileCount (build_tree root files) i := by
  obtain ⟨hI0, hr2, hfc0⟩ := Inv_init root hroot
  have hInvF : Inv root (files.foldl (addFile root)
      (ensure_dir root (root.length + 2) root ⟨[], []⟩).1) :=
    build_foldl root hroot files (ensure_dir root (root.length + 2) root ⟨[], []⟩).1
      hI0 (by rw [hfc0]; omega) hfiles
  intro i hi hk
  have ht : (build_tree root files).nodes
      = (files.foldl (addFile root)
          (ensure_dir root (root.length + 2) root ⟨[], []⟩).1).nodes := rfl
  have hi' : i < (files.foldl (addFile root)
      (ensure_dir root (root.length + 2) root ⟨[], []⟩).1).nodes.length := hi
  have hk' : ((files.foldl (addFile root)
      (ensure_dir root (root.length + 2) root ⟨[], []⟩).1).nodes.getD i default).kind
      = NodeKind.Dir := hk
  obtain ⟨hd1, hd2⟩ := desc_eq_filesUnder root hroot _ hInvF (build_tree root files) ht
    i hi' hk'
  obtain ⟨ha1, ha2⟩ := hInvF.agg i hi' hk'
  constructor
  · rw [ht, hd1]
    exact ha1
  · rw [ht, hd2]
    exact ha2

theorem C1_dir_aggregation_witness :
    ((build_tree [OsStr.valid "/"] [([OsStr.valid "/", OsStr.valid "a"], 5)]).nodes.getD 0
        default).size
      = descFileSizes (build_tree [OsStr.valid "/"]
          [([OsStr.valid "/", OsStr.valid "a"], 5)]) 0 ∧
    ((build_tree [OsStr.valid "/"] [([OsStr.valid "/", OsStr.valid "a"], 5)]).nodes.getD 0
        default).file_count
      = descFileCount (build_tree [OsStr.valid "/"]
          [([OsStr.valid "/", OsStr.valid "a"], 5)]) 0 :=
  C1_dir_aggregation [OsStr.valid "/"] [([OsStr.valid "/", OsStr.valid "a"], 5)]
    (by decide) (by decide) (by decide) 0 (by decide) (by decide)


end Treesize
